import Mathlib

/-!
Verification of the link-grammar exhaustive counting engine
(`src/link-grammar/histogram.h`, which carries the counting code:
`do_match`, the memo table, `do_count`, `do_parse`).

Shallow embedding conventions:
* Connector pointers are indices (`Option Nat`, `none` = NULL) into an
  arena carried by `Env`: `Env.conn` holds the connector record at an
  index and `Env.next` is the `->next` pointer.  Pointer identity — two
  distinct indices with identical content are distinct memo keys — is
  preserved, as the source requires.
* The hash table (`Table_connector` chains) is flattened into an
  association list; per-key chain order (prepend on store, first match
  on lookup) is preserved, which is all `find_table_pointer` observes.
* `s64` counts are idealized integers (`Int`); the only machine bound
  the code itself manipulates is the `INT_MAX` saturation constant,
  kept explicit below.
* External collaborators that are not part of this repository are
  fields of `Env`: `form_match_list` (fast-match.c), `easy_match`
  (word-utils.c, modelled from the spec below), `resources_exhausted`
  (resources.c, modelled as a boolean oracle indexed by the value of
  the `checktimer` counter at the moment of the poll), and the
  `effective_dist` matrix used by the fat-linkages matcher.
* C `assert`s are fatal contract checks (spec §7); they are not modelled.
-/

/-- INT_MAX, the saturation sentinel used by `do_count`. -/
def INT_MAX : Int := 2147483647

/-- PARSE_NUM_OVERFLOW from the header (the upstream 2^24 threshold). -/
def PARSE_NUM_OVERFLOW : Int := 16777216

/-- THIN_priority connector priority constant. -/
def THIN_priority : Int := 0

/-- UP_priority connector priority constant. -/
def UP_priority : Int := 1

/-- DOWN_priority connector priority constant. -/
def DOWN_priority : Int := 2

/-- Connector record (fields of `Connector_struct` read by this file:
`label`, `priority`, `string`, `multi`, `length_limit`, `word`; the
`next` pointer lives in the arena, see `Env.next`). -/
structure Connector where
  label : Int
  priority : Int
  string : List Char
  multi : Bool
  length_limit : Int
  word : Int
deriving DecidableEq, Repr

/-- Disjunct record: head pointers of the left and right connector lists. -/
structure Disjunct where
  left : Option Nat
  right : Option Nat
deriving DecidableEq, Repr

/-- Memo key: the quintuple `(lw, rw, le, re, cost)` of `Table_connector`.
Connectors are compared by pointer (arena index). -/
structure TKey where
  lw : Int
  rw : Int
  le : Option Nat
  re : Option Nat
  cost : Int
deriving DecidableEq, Repr

/-- Mutable fields of `count_context_s` that the counting code reads and
writes: configuration snapshot, memo table, exhaustion flag, checktimer. -/
structure Ctxt where
  null_block : Int
  islands_ok : Bool
  current_resources : Bool
  table : List (TKey × Int)
  exhausted : Bool
  checktimer : Nat
deriving DecidableEq, Repr

/-- Read-only world: the connector arena, the sentence (`local_sent`),
and the external collaborators (match-list provider, resource oracle,
fat-linkages effective-distance matrix). -/
structure Env where
  conn : Nat → Connector
  next : Nat → Option Nat
  local_sent : Int → List Disjunct
  form_match_list : Int → Option Nat → Int → Option Nat → Int → List Disjunct
  resExhausted : Nat → Bool
  effective_dist : Int → Int → Int

/-- Parse_Options fields consumed by `do_parse`. -/
structure ParseOptions where
  islands_ok : Bool
  resources : Bool
deriving DecidableEq, Repr

/-! ### Connector matching -/

/-- Lockstep consumption of the uppercase prefix of two connector
strings: while either current byte is uppercase both must be equal
(`while (isupper(*s) || isupper(*t)) { if (*s != *t) return FALSE; ... }`);
returns the remaining suffixes, or `none` on mismatch. -/
def match_upper : List Char → List Char → Option (List Char × List Char)
  | c1 :: s, c2 :: t =>
    if c1.isUpper ∨ c2.isUpper then
      if c1 = c2 then match_upper s t else none
    else some (c1 :: s, c2 :: t)
  | [], c2 :: t => if c2.isUpper then none else some ([], c2 :: t)
  | c1 :: s, [] => if c1.isUpper then none else some (c1 :: s, [])
  | [], [] => some ([], [])

/-- THIN/THIN suffix loop: `*` on either side matches, `^` matches only
`*`, otherwise equal bytes match; succeed when either string ends. -/
def thin_tail : List Char → List Char → Bool
  | a :: s, b :: t =>
    if a = '*' ∨ b = '*' ∨ (a = b ∧ a ≠ '^') then thin_tail s t else false
  | _, _ => true

/-- UP/DOWN suffix loop with the star on the first string and the caret
on the second: `(*s == *t) || (*s == '*') || (*t == '^')`. -/
def updown_tail : List Char → List Char → Bool
  | a :: s, b :: t =>
    if a = b ∨ a = '*' ∨ b = '^' then updown_tail s t else false
  | _, _ => true

/-- Modelled from the spec: `easy_match` (word-utils.c, not under src/)
is the THIN/THIN specialization — consume the uppercase prefixes in
lockstep requiring equality, then run the wildcard-aware lowercase
loop.  It does not look at labels, priorities or distances. -/
def easy_match (s t : List Char) : Bool :=
  match match_upper s t with
  | none => false
  | some (s', t') => thin_tail s' t'

/-- do_match, the default (non-USE_FAT_LINKAGES) matcher at lines
311-317: length-limit check on `dist = bw - aw`, then `easy_match` on
the two strings.  The `ctxt` argument is unused, as in the source. -/
def do_match (_env : Env) (a b : Connector) (aw bw : Int) : Bool :=
  let dist := bw - aw
  if dist > a.length_limit ∨ dist > b.length_limit then false
  else easy_match a.string b.string

/-- do_match, the USE_FAT_LINKAGES variant at lines 204-297: label
check first, uppercase lockstep, effective-distance length-limit
check, then the priority-directed suffix loops. -/
def do_match_fat (env : Env) (a b : Connector) (aw bw : Int) : Bool :=
  if a.label ≠ b.label then false
  else
    match match_upper a.string b.string with
    | none => false
    | some (s, t) =>
      let x := a.priority
      let y := b.priority
      let dist := if aw = 0 ∧ bw = 0 then 0 else env.effective_dist aw bw
      if dist > a.length_limit ∨ dist > b.length_limit then false
      else if x = THIN_priority ∧ y = THIN_priority then thin_tail s t
      else if x = UP_priority ∧ y = DOWN_priority then updown_tail s t
      else if y = UP_priority ∧ x = DOWN_priority then updown_tail t s
      else false

/-! ### Memo table -/

/-- Search an association list for the first entry with this key
(the per-bucket chain walk of `find_table_pointer`). -/
def table_find : List (TKey × Int) → TKey → Option Int
  | [], _ => none
  | e :: t, k => if e.1 = k then some e.2 else table_find t k

/-- Overwrite the count of the first entry with this key (the
`t->count = ...` writes through the frame's `Table_connector *t`). -/
def set_count : List (TKey × Int) → TKey → Int → List (TKey × Int)
  | [], _, _ => []
  | e :: t, k, v => if e.1 = k then (k, v) :: t else e :: set_count t k v

/-- table_store: prepend a fresh entry to its chain.  The source
assumes the key is not already present. -/
def table_store (c : Ctxt) (k : TKey) (count : Int) : Ctxt :=
  { c with table := (k, count) :: c.table }

/-- Update through the frame's entry pointer. -/
def ctxt_set (c : Ctxt) (k : TKey) (count : Int) : Ctxt :=
  { c with table := set_count c.table k count }

/-- free_table: drop all entries. -/
def free_table (c : Ctxt) : Ctxt :=
  { c with table := [] }

/-- init_table: tear down any previous table and install a fresh empty
one (the power-of-two sizing only affects hashing, which the
association list abstracts away). -/
def init_table (c : Ctxt) : Ctxt :=
  { c with table := [] }

/-- alloc_count_context: zeroed context with a freshly initialized table. -/
def alloc_count_context : Ctxt :=
  init_table
    { null_block := 0, islands_ok := false, current_resources := false,
      table := [], exhausted := false, checktimer := 0 }

/-- free_count_context releases the table and the context itself;
observably the table is gone. -/
def free_count_context (c : Ctxt) : Ctxt :=
  free_table c

/-- Guard of the zero-stuffing path of `find_table_pointer`, evaluated
after the `checktimer` increment: already exhausted, or this is a poll
tick (`0 == checktimer % 450100`), the resource handle is non-NULL and
`resources_exhausted` reports true. -/
def poll_fires (env : Env) (c : Ctxt) : Prop :=
  c.exhausted = true ∨
  ((c.checktimer + 1) % 450100 = 0 ∧ c.current_resources = true ∧
   env.resExhausted (c.checktimer + 1) = true)

instance (env : Env) (c : Ctxt) : Decidable (poll_fires env c) := by
  unfold poll_fires
  infer_instance

/-- find_table_pointer: chain walk; on a miss, bump `checktimer` and —
if already exhausted, or if this is a poll tick and the resource
budget reports exhausted — set `exhausted` and materialize a fresh
zero-count entry, which is returned. -/
def find_table_pointer (env : Env) (c : Ctxt) (k : TKey) : Option Int × Ctxt :=
  match table_find c.table k with
  | some cnt => (some cnt, c)
  | none =>
    if poll_fires env c then
      (some 0, table_store { c with checktimer := c.checktimer + 1, exhausted := true } k 0)
    else (none, { c with checktimer := c.checktimer + 1 })

/-- table_lookup: the count for this quintuple if there, `-1` otherwise. -/
def table_lookup (env : Env) (c : Ctxt) (lw rw : Int) (le re : Option Nat)
    (cost : Int) : Int × Ctxt :=
  let fr := find_table_pointer env c ⟨lw, rw, le, re, cost⟩
  match fr.1 with
  | some cnt => (cnt, fr.2)
  | none => (-1, fr.2)

/-- pseudocount: `0` iff the entry is in the table with count `0`,
else `1`. -/
def pseudocount (env : Env) (c : Ctxt) (lw rw : Int) (le re : Option Nat)
    (cost : Int) : Int × Ctxt :=
  let r := table_lookup env c lw rw le re cost
  (if r.1 = 0 then 0 else 1, r.2)

/-! ### The counter -/

/-- Shape of a state-threaded counting oracle: both `pseudocount` and a
recursive `do_count` instance have this type, so the two evaluation
passes of the main loop are literally the same aggregation applied to
two different oracles. -/
abbrev CountFn := Ctxt → Int → Int → Option Nat → Option Nat → Int → Int × Ctxt

/-- pseudocount as a `CountFn`. -/
def pc_fn (env : Env) : CountFn :=
  fun c lw rw le re cost => pseudocount env c lw rw le re cost

/-- Integer interval `[a, b)` as a list, for the split-word and
cost-partition loops. -/
def intRange (a b : Int) : List Int :=
  (List.range (b - a).toNat).map (fun i => a + (i : Int))

/-- Sum an oracle over a list of keys, threading the context: the
gated four-term `leftcount` / `rightcount` accumulations. -/
def agg_over (f : CountFn) (c : Ctxt) : List TKey → Int × Ctxt
  | [] => (0, c)
  | k :: ks =>
    let r := f c k.lw k.rw k.le k.re k.cost
    let rest := agg_over f r.2 ks
    (r.1 + rest.1, rest.2)

/-- Keys of the four (multi-gated) left-side terms, in source order:
`(lw, w, le->next, d->left->next)`, then `le->multi`, `d->left->multi`
and the combined variants. -/
def left_keys (env : Env) (lw w : Int) (l dl : Nat) (lcost : Int) : List TKey :=
  ⟨lw, w, env.next l, env.next dl, lcost⟩ ::
  ((if (env.conn l).multi then [⟨lw, w, some l, env.next dl, lcost⟩] else []) ++
   (if (env.conn dl).multi then [⟨lw, w, env.next l, some dl, lcost⟩] else []) ++
   (if (env.conn l).multi ∧ (env.conn dl).multi then
      [⟨lw, w, some l, some dl, lcost⟩] else []))

/-- Keys of the four (multi-gated) right-side terms, in source order:
`(w, rw, d->right->next, re->next)`, then `d->right->multi`,
`re->multi` and the combined variants. -/
def right_keys (env : Env) (w rw : Int) (dr r : Nat) (rcost : Int) : List TKey :=
  ⟨w, rw, env.next dr, env.next r, rcost⟩ ::
  ((if (env.conn dr).multi then [⟨w, rw, some dr, env.next r, rcost⟩] else []) ++
   (if (env.conn r).multi then [⟨w, rw, env.next dr, some r, rcost⟩] else []) ++
   (if (env.conn dr).multi ∧ (env.conn r).multi then
      [⟨w, rw, some dr, some r, rcost⟩] else []))

/-- leftcount aggregation: `Lmatch = (le != NULL) && (d->left != NULL)
&& do_match(le, d->left, lw, w)` gates the four-term sum. -/
def left_count (f : CountFn) (env : Env) (c : Ctxt) (lw w : Int)
    (le dleft : Option Nat) (lcost : Int) : Int × Ctxt :=
  match le, dleft with
  | some l, some dl =>
    if do_match env (env.conn l) (env.conn dl) lw w then
      agg_over f c (left_keys env lw w l dl lcost)
    else (0, c)
  | _, _ => (0, c)

/-- rightcount aggregation: `Rmatch = (d->right != NULL) && (re != NULL)
&& do_match(d->right, re, w, rw)` gates the four-term sum. -/
def right_count (f : CountFn) (env : Env) (c : Ctxt) (w rw : Int)
    (dright re : Option Nat) (rcost : Int) : Int × Ctxt :=
  match dright, re with
  | some dr, some r =>
    if do_match env (env.conn dr) (env.conn r) w rw then
      agg_over f c (right_keys env w rw dr r rcost)
    else (0, c)
  | _, _ => (0, c)

/-- The `leftcount > 0` extra term: evaluate using the left match but
not the right (`total += leftcount * f(w, rw, d->right, re, rcost)`). -/
def extra_left (f : CountFn) (st : Int × Ctxt) (w rw : Int)
    (dright re : Option Nat) (rcost : Int) (leftcount : Int) : Int × Ctxt :=
  if 0 < leftcount then
    let q := f st.2 w rw dright re rcost
    (st.1 + leftcount * q.1, q.2)
  else st

/-- The `le == NULL && rightcount > 0` extra term: evaluate using the
right match but not the left
(`total += rightcount * f(lw, w, le, d->left, lcost)`). -/
def extra_right (f : CountFn) (st : Int × Ctxt) (lw w : Int)
    (le dleft : Option Nat) (lcost : Int) (rightcount : Int) : Int × Ctxt :=
  if le = none ∧ 0 < rightcount then
    let q := f st.2 lw w le dleft lcost
    (st.1 + rightcount * q.1, q.2)
  else st

/-- Per-(split word, disjunct, cost partition) aggregation of the main
loop: `leftcount * rightcount`, plus the left-only term when
`leftcount > 0`, plus the right-only term when `le == NULL` and
`rightcount > 0`.  Instantiated with `pc_fn` it is the pseudototal
pass; with `do_count` it is the real pass. -/
def count_branch (f : CountFn) (env : Env) (c : Ctxt) (lw rw w : Int)
    (le re : Option Nat) (d : Disjunct) (lcost rcost : Int) : Int × Ctxt :=
  let lres := left_count f env c lw w le d.left lcost
  let rres := right_count f env lres.2 w rw d.right re rcost
  extra_right f
    (extra_left f (lres.1 * rres.1, rres.2) w rw d.right re rcost lres.1)
    lw w le d.left lcost rres.1

/-- Body of the `lcost` loop: compute the pseudototal; if nonzero,
re-run the same aggregation with the real oracle, accumulate and
saturate at `INT_MAX` (the early `return` is the `Bool` stop flag). -/
def step_lcost (f : CountFn) (env : Env) (lw rw w : Int)
    (le re : Option Nat) (d : Disjunct) (nc : Int)
    (acc : Int × Ctxt × Bool) (lcost : Int) : Int × Ctxt × Bool :=
  match acc with
  | (total, c, true) => (total, c, true)
  | (total, c, false) =>
    let rcost := nc - lcost
    let p := count_branch (pc_fn env) env c lw rw w le re d lcost rcost
    if p.1 ≠ 0 then
      let r := count_branch f env p.2 lw rw w le re d lcost rcost
      let total' := total + r.1
      if INT_MAX < total' then (INT_MAX, r.2, true)
      else (total', r.2, false)
    else (total, p.2, false)

/-- Body of the match-list loop: run every cost partition
`lcost = 0 … null_count` for one disjunct. -/
def step_disjunct (f : CountFn) (env : Env) (lw rw w : Int)
    (le re : Option Nat) (nc : Int)
    (acc : Int × Ctxt × Bool) (d : Disjunct) : Int × Ctxt × Bool :=
  (intRange 0 (nc + 1)).foldl (step_lcost f env lw rw w le re d nc) acc

/-- Body of the split-word loop: form the match list for `w` and fold
over its disjuncts. -/
def step_word (f : CountFn) (env : Env) (lw rw : Int)
    (le re : Option Nat) (nc : Int)
    (acc : Int × Ctxt × Bool) (w : Int) : Int × Ctxt × Bool :=
  (env.form_match_list w le lw re rw).foldl
    (step_disjunct f env lw rw w le re nc) acc

/-- Sum, over the disjuncts of word `lw+1` with no left connector, the
counts with that disjunct's right connector pending (the
both-boundaries-null recursion loop). -/
def null_sum (f : CountFn) (c : Ctxt) (w rw nc : Int) : List Disjunct → Int × Ctxt
  | [] => (0, c)
  | d :: ds =>
    if d.left = none then
      let r := f c w rw d.right none (nc - 1)
      let rest := null_sum f r.2 w rw nc ds
      (r.1 + rest.1, rest.2)
    else null_sum f c w rw nc ds

/-- Body of the both-boundaries-null recursion (`null_count > 0`
case): the disjunct loop followed by the all-null continuation. -/
def null_words_total (f : CountFn) (c : Ctxt) (w rw : Int) (nc : Int)
    (ds : List Disjunct) : Int × Ctxt :=
  let s := null_sum f c w rw nc ds
  let r := f s.2 w rw none none (nc - 1)
  (s.1 + r.1, r.2)

/-- One frame of `do_count`, with the recursive occurrences abstracted
into the oracle `f`.  Mirrors the source line by line: negative
null-count guard; `find_table_pointer` (early return of the stored
count); tentative zero store; the adjacent-words base case; the
both-null cases (islands-disallowed closed form, zero-budget, the
null-word recursion); and the general split-word loop with the
pseudocount-guarded double evaluation and `INT_MAX` saturation,
finishing with the `t->count = total` overwrite. -/
def do_count_body (f : CountFn) (env : Env) (c : Ctxt) (lw rw : Int)
    (le re : Option Nat) (null_count : Int) : Int × Ctxt :=
  if null_count < 0 then (0, c)
  else
    let k : TKey := ⟨lw, rw, le, re, null_count⟩
    let fr := find_table_pointer env c k
    match fr.1 with
    | some cnt => (cnt, fr.2)
    | none =>
      let c1 := table_store fr.2 k 0
      if rw = lw + 1 then
        let v : Int := if le = none ∧ re = none ∧ null_count = 0 then 1 else 0
        (v, ctxt_set c1 k v)
      else if le = none ∧ re = none then
        if c1.islands_ok = false ∧ lw ≠ -1 then
          let v : Int :=
            if null_count = (rw - lw - 1 + c1.null_block - 1) / c1.null_block
            then 1 else 0
          (v, ctxt_set c1 k v)
        else if null_count = 0 then
          (0, ctxt_set c1 k 0)
        else
          let w := lw + 1
          let r := null_words_total f c1 w rw null_count (env.local_sent w)
          (r.1, ctxt_set r.2 k r.1)
      else
        let start_word : Int :=
          match le with
          | none => lw + 1
          | some l => (env.conn l).word
        let end_word : Int :=
          match re with
          | none => rw
          | some r => (env.conn r).word + 1
        let r :=
          (intRange start_word end_word).foldl
            (step_word f env lw rw le re null_count) (0, c1, false)
        (r.1, ctxt_set r.2.1 k r.1)

/-- do_count, fuel-indexed: each frame runs `do_count_body` with the
recursive oracle at one unit less fuel.  With fuel exhausted the call
answers `(0, unchanged)`; all theorems below either hold for every
fuel or assume enough fuel explicitly. -/
def do_count : Nat → Env → CountFn
  | 0, _ => fun c _ _ _ _ _ => (0, c)
  | fuel + 1, env => fun c lw rw le re nc =>
      do_count_body (do_count fuel env) env c lw rw le re nc

/-- do_parse: snapshot the options into the context (`current_resources`,
`exhausted` from a fresh resource poll, `checktimer = 0`,
`null_block = 1`, `islands_ok`), run the whole-sentence count with one
extra null unit, then clear the plumbing fields. -/
def do_parse (fuel : Nat) (env : Env) (sent_length : Int) (c : Ctxt)
    (null_count : Int) (opts : ParseOptions) : Int × Ctxt :=
  let c0 := { c with current_resources := opts.resources }
  let c1 := { c0 with exhausted := env.resExhausted c0.checktimer }
  let c2 := { c1 with checktimer := 0 }
  let c3 := { c2 with null_block := 1, islands_ok := opts.islands_ok }
  let r := do_count fuel env c3 (-1) sent_length none none (null_count + 1)
  (r.1, { r.2 with current_resources := false, checktimer := 0 })

/-! ### Specification-side notions and concrete fixtures -/

/-- Records what every operation of the engine guarantees about the
memo and configuration when passing from state `c` to a later state
`c'`: entries already present keep their key and count, the
configuration snapshot is untouched, and the `exhausted` flag never
falls back to `false`. -/
def Evolves (c c' : Ctxt) : Prop :=
  (∀ k v, table_find c.table k = some v → table_find c'.table k = some v) ∧
  c'.null_block = c.null_block ∧ c'.islands_ok = c.islands_ok ∧
  c'.current_resources = c.current_resources ∧
  (c.exhausted = true → c'.exhausted = true)

/-- Every `CountFn` the engine threads states through satisfies this. -/
def EvolvesF (f : CountFn) : Prop :=
  ∀ c lw rw le re nc, Evolves c (f c lw rw le re nc).2

/-- All counts stored in the table are nonnegative. -/
def TblGe0 (c : Ctxt) : Prop :=
  ∀ k v, table_find c.table k = some v → 0 ≤ v

/-- The same world with the resource budget never reporting
exhaustion: the reference for "the exact count". -/
def noRes (env : Env) : Env :=
  { env with resExhausted := fun _ => false }

/-- Resource oracle that never fires. -/
def OracleOff (env : Env) : Prop :=
  ∀ n, env.resExhausted n = false

/-- A `CountFn` that never produces a negative count and keeps every
stored count nonnegative. -/
def Ge0F (f : CountFn) : Prop :=
  ∀ c lw rw le re nc, TblGe0 c →
    0 ≤ (f c lw rw le re nc).1 ∧ TblGe0 (f c lw rw le re nc).2

/-- A `CountFn` that never raises the exhausted flag. -/
def KeepsUnexh (f : CountFn) : Prop :=
  ∀ c lw rw le re nc, c.exhausted = false →
    (f c lw rw le re nc).2.exhausted = false

/-- Lockstep phase of the exhaustion simulation: the truncated run and
the reference run are still in identical, unexhausted states. -/
def SimEq (ce ci : Ctxt) : Prop :=
  ce = ci ∧ ce.exhausted = false ∧ TblGe0 ce

/-- Divergence phase: the truncated run is exhausted, the reference
run is not, both tables are nonnegative, and every count the
truncated run has stored is either one of its stuffed zeros or bounded
by the reference run's stored count for the same key. -/
def SimR (ce ci : Ctxt) : Prop :=
  ce.exhausted = true ∧ ci.exhausted = false ∧
  TblGe0 ce ∧ TblGe0 ci ∧
  (∀ k v, table_find ce.table k = some v →
    v = 0 ∨ ∃ vi, table_find ci.table k = some vi ∧ v ≤ vi)

/-- Exhaustion simulation relation. -/
def Sim (ce ci : Ctxt) : Prop :=
  SimEq ce ci ∨ SimR ce ci

/-- Relational postcondition of one paired operation: the truncated
value is a nonnegative lower bound of the reference value, lockstep
states stay lockstep (with equal values) unless the truncated run
just exhausted, and diverged states stay diverged. -/
def RelOut (ce ci ce' ci' : Ctxt) (ve vi : Int) : Prop :=
  0 ≤ ve ∧ ve ≤ vi ∧
  (SimEq ce ci → ((SimEq ce' ci' ∧ ve = vi) ∨ SimR ce' ci')) ∧
  (SimR ce ci → SimR ce' ci')

/-- A pair of counting oracles (truncated / reference) related step by
step by the exhaustion simulation. -/
def SimF (fe fi : CountFn) : Prop :=
  ∀ ce ci lw rw le re nc, Sim ce ci →
    RelOut ce ci (fe ce lw rw le re nc).2 (fi ci lw rw le re nc).2
      (fe ce lw rw le re nc).1 (fi ci lw rw le re nc).1

/-- A `CountFn` that returns nonnegative counts from, and preserves,
states satisfying `P`. -/
def PresV (P : Ctxt → Prop) (f : CountFn) : Prop :=
  ∀ c lw rw le re nc, P c → 0 ≤ (f c lw rw le re nc).1 ∧ P (f c lw rw le re nc).2

/-- Unexhausted state with a nonnegative table: the invariant of the
reference (never-exhausting) run. -/
def Unexh0 (c : Ctxt) : Prop :=
  c.exhausted = false ∧ TblGe0 c

/-- A `CountFn` that, started in the truncated (exhausted) state of the
simulation, answers nonnegatively and keeps the simulation against the
other side's state untouched: the behaviour of any engine oracle once
`exhausted` is set, since every lookup then short-circuits. -/
def ShallowF (f : CountFn) : Prop :=
  ∀ ce ci lw rw le re nc, SimR ce ci →
    0 ≤ (f ce lw rw le re nc).1 ∧ SimR (f ce lw rw le re nc).2 ci

/-- Relational invariant of the split-word loop accumulators
(truncated vs reference): in lockstep the totals, stop flags and
states coincide; after divergence the truncated total is a nonnegative
lower bound of the reference total, both are saturation-capped, and a
raised stop flag pins its total at `INT_MAX`. -/
def AccRel (a b : Int × Ctxt × Bool) : Prop :=
  (a.1 = b.1 ∧ a.2.2 = b.2.2 ∧ 0 ≤ a.1 ∧ a.1 ≤ INT_MAX ∧ SimEq a.2.1 b.2.1) ∨
  (SimR a.2.1 b.2.1 ∧ 0 ≤ a.1 ∧ a.1 ≤ b.1 ∧ b.1 ≤ INT_MAX ∧
   (a.2.2 = true → a.1 = INT_MAX) ∧ (b.2.2 = true → b.1 = INT_MAX))

/-- Connector with all-zero fields, for concrete test worlds. -/
def conn0 : Connector :=
  ⟨0, 0, [], false, 0, 0⟩

/-- Minimal world: no disjuncts, no matches, resources never
exhausted. -/
def envTriv : Env :=
  { conn := fun _ => conn0, next := fun _ => none,
    local_sent := fun _ => [], form_match_list := fun _ _ _ _ _ => [],
    resExhausted := fun _ => false, effective_dist := fun _ _ => 0 }

/-- Fresh context: unit null block, islands allowed, NULL resource
handle, empty table. -/
def ctxtTriv : Ctxt :=
  { null_block := 1, islands_ok := true, current_resources := false,
    table := [], exhausted := false, checktimer := 0 }

/-- World in which every word carries three disjuncts with no
connectors at all: every word can only be a null word, in four
memoized ways per position, so counts grow as `4^n`. -/
def envOverflow : Env :=
  { envTriv with
    local_sent := fun _ => [⟨none, none⟩, ⟨none, none⟩, ⟨none, none⟩] }

/-- World whose resource budget reports exhausted from the start, with
one connector-free disjunct on word 0. -/
def envExh : Env :=
  { envTriv with
    resExhausted := fun _ => true,
    local_sent := fun w => if w = 0 then [⟨none, none⟩] else [] }

/-- Context with islands disallowed. -/
def ctxtNoIsl : Ctxt :=
  { ctxtTriv with islands_ok := false }

/-- Context already marked exhausted. -/
def ctxtExh : Ctxt :=
  { ctxtTriv with exhausted := true }

/-- Context whose table already stores count 5 for one key. -/
def ctxtHit : Ctxt :=
  { ctxtTriv with table := [(⟨0, 2, none, none, 0⟩, 5)] }

/-- Connector `S` with label 1 on word 0. -/
def connA : Connector :=
  ⟨1, 0, ['S'], false, 5, 0⟩

/-- Connector `S` with label 2 on word 1. -/
def connB : Connector :=
  ⟨2, 0, ['S'], false, 5, 1⟩

/-! ### Table lemmas -/

theorem table_find_cons_self (t : List (TKey × Int)) (k : TKey) (v : Int) :
    table_find ((k, v) :: t) k = some v := by
  simp [table_find]

theorem table_find_cons_of_ne (t : List (TKey × Int)) (e : TKey × Int) (k : TKey)
    (h : e.1 ≠ k) : table_find (e :: t) k = table_find t k := by
  simp [table_find, h]

theorem table_find_store_of_find (t : List (TKey × Int)) (k0 k : TKey) (x v : Int)
    (habs : table_find t k0 = none) (h : table_find t k = some v) :
    table_find ((k0, x) :: t) k = some v := by
  have hne : k0 ≠ k := by
    intro he
    rw [he] at habs
    rw [habs] at h
    exact Option.noConfusion h
  simpa [table_find, hne] using h

theorem table_find_set_self (t : List (TKey × Int)) (k : TKey) (u v : Int)
    (h : table_find t k = some u) :
    table_find (set_count t k v) k = some v := by
  induction t with
  | nil => simp [table_find] at h
  | cons e t ih =>
    by_cases he : e.1 = k
    · simp [set_count, he, table_find]
    · rw [table_find_cons_of_ne t e k he] at h
      simp only [set_count, he, if_false]
      rw [table_find_cons_of_ne _ e k he]
      exact ih h

theorem table_find_set_of_ne (t : List (TKey × Int)) (k k' : TKey) (v : Int)
    (h : k' ≠ k) :
    table_find (set_count t k v) k' = table_find t k' := by
  induction t with
  | nil => simp [set_count]
  | cons e t ih =>
    by_cases he : e.1 = k
    · subst he
      simp [set_count, table_find, Ne.symm h]
    · simp only [set_count, he, if_false, table_find]
      by_cases he' : e.1 = k'
      · simp [he']
      · simp [he', ih]

theorem table_find_set_cases (t : List (TKey × Int)) (k k' : TKey) (v u : Int)
    (h : table_find (set_count t k v) k' = some u) :
    u = v ∨ table_find t k' = some u := by
  by_cases hk : k' = k
  · subst hk
    induction t with
    | nil => simp [set_count, table_find] at h
    | cons e t ih =>
      by_cases he : e.1 = k'
      · simp [set_count, he, table_find] at h
        exact Or.inl h.symm
      · simp only [set_count, he, if_false] at h
        rw [table_find_cons_of_ne _ e k' he] at h
        rcases ih h with h1 | h2
        · exact Or.inl h1
        · right
          rw [table_find_cons_of_ne _ e k' he]
          exact h2
  · rw [table_find_set_of_ne t k k' v hk] at h
    exact Or.inr h


/-! ### State evolution

`Evolves c c'` records what every operation of the engine guarantees
about the memo and configuration when passing from state `c` to a
later state `c'`: entries already present keep their key and count,
the configuration snapshot is untouched, and the `exhausted` flag
never falls back to `false`. -/

theorem evolves_refl (c : Ctxt) : Evolves c c :=
  ⟨fun _ _ h => h, Eq.refl _, Eq.refl _, Eq.refl _, fun h => h⟩

theorem evolves_trans {a b c : Ctxt} (h1 : Evolves a b) (h2 : Evolves b c) :
    Evolves a c :=
  ⟨fun k v h => h2.1 k v (h1.1 k v h),
   h2.2.1.trans h1.2.1, h2.2.2.1.trans h1.2.2.1,
   h2.2.2.2.1.trans h1.2.2.2.1, fun h => h2.2.2.2.2 (h1.2.2.2.2 h)⟩

theorem evolves_store_absent (c : Ctxt) (k : TKey) (x : Int)
    (habs : table_find c.table k = none) : Evolves c (table_store c k x) := by
  refine ⟨fun k' v' hv => ?_, rfl, rfl, rfl, fun h => h⟩
  exact table_find_store_of_find _ k k' x v' habs hv

theorem evolves_ctxt_set_absent {c cY : Ctxt} (k : TKey) (v : Int)
    (habs : table_find c.table k = none) (h : Evolves c cY) :
    Evolves c (ctxt_set cY k v) := by
  refine ⟨fun k' v' hv => ?_, h.2.1, h.2.2.1, h.2.2.2.1, h.2.2.2.2⟩
  have hne : k' ≠ k := by
    intro he
    rw [he, habs] at hv
    exact Option.noConfusion hv
  show table_find (set_count cY.table k v) k' = some v'
  rw [table_find_set_of_ne _ k k' v hne]
  exact h.1 k' v' hv

/-- Equation: a hit returns the stored count with the state unchanged. -/
theorem ftp_hit (env : Env) (c : Ctxt) (k : TKey) (cnt : Int)
    (hf : table_find c.table k = some cnt) :
    find_table_pointer env c k = (some cnt, c) := by
  unfold find_table_pointer
  rw [hf]

/-- Equation: a miss on which the stuffing guard fires stores a fresh
zero entry and returns it, with `exhausted` set. -/
theorem ftp_stuff (env : Env) (c : Ctxt) (k : TKey)
    (hf : table_find c.table k = none) (hp : poll_fires env c) :
    find_table_pointer env c k =
      (some 0,
       table_store { c with checktimer := c.checktimer + 1, exhausted := true } k 0) := by
  unfold find_table_pointer
  rw [hf]
  exact if_pos hp

/-- Equation: a quiet miss only bumps the checktimer. -/
theorem ftp_miss (env : Env) (c : Ctxt) (k : TKey)
    (hf : table_find c.table k = none) (hp : ¬ poll_fires env c) :
    find_table_pointer env c k = (none, { c with checktimer := c.checktimer + 1 }) := by
  unfold find_table_pointer
  rw [hf]
  exact if_neg hp

/-- Conversely, a `none` first component forces the quiet-miss shape. -/
theorem ftp_none_inv (env : Env) (c : Ctxt) (k : TKey)
    (h : (find_table_pointer env c k).1 = none) :
    table_find c.table k = none ∧ ¬ poll_fires env c ∧
    (find_table_pointer env c k).2 = { c with checktimer := c.checktimer + 1 } := by
  cases hf : table_find c.table k with
  | some cnt =>
    rw [ftp_hit env c k cnt hf] at h
    exact Option.noConfusion h
  | none =>
    by_cases hp : poll_fires env c
    · rw [ftp_stuff env c k hf hp] at h
      exact Option.noConfusion h
    · exact ⟨rfl, hp, by rw [ftp_miss env c k hf hp]⟩

/-- Conversely, a `some` first component is a hit or a stuffed zero. -/
theorem ftp_some_inv (env : Env) (c : Ctxt) (k : TKey) (cnt : Int)
    (h : (find_table_pointer env c k).1 = some cnt) :
    (table_find c.table k = some cnt ∧ (find_table_pointer env c k).2 = c) ∨
    (table_find c.table k = none ∧ poll_fires env c ∧ cnt = 0 ∧
     (find_table_pointer env c k).2 =
       table_store { c with checktimer := c.checktimer + 1, exhausted := true } k 0) := by
  cases hf : table_find c.table k with
  | some v =>
    rw [ftp_hit env c k v hf] at h ⊢
    rw [Option.some_inj] at h
    exact Or.inl ⟨congrArg some h, rfl⟩
  | none =>
    by_cases hp : poll_fires env c
    · rw [ftp_stuff env c k hf hp] at h ⊢
      rw [Option.some_inj] at h
      exact Or.inr ⟨rfl, hp, h.symm, rfl⟩
    · rw [ftp_miss env c k hf hp] at h
      exact Option.noConfusion h

theorem find_table_pointer_evolves (env : Env) (c : Ctxt) (k : TKey) :
    Evolves c (find_table_pointer env c k).2 := by
  cases hf : table_find c.table k with
  | some cnt =>
    rw [ftp_hit env c k cnt hf]
    exact evolves_refl c
  | none =>
    by_cases hp : poll_fires env c
    · rw [ftp_stuff env c k hf hp]
      refine ⟨fun k' v' hv => ?_, rfl, rfl, rfl, fun _ => rfl⟩
      exact table_find_store_of_find _ k k' 0 v' hf hv
    · rw [ftp_miss env c k hf hp]
      exact ⟨fun _ _ hv => hv, rfl, rfl, rfl, fun hx => hx⟩

theorem table_lookup_evolves (env : Env) (c : Ctxt) (lw rw : Int)
    (le re : Option Nat) (cost : Int) :
    Evolves c (table_lookup env c lw rw le re cost).2 := by
  unfold table_lookup
  cases h : (find_table_pointer env c ⟨lw, rw, le, re, cost⟩).1 with
  | some cnt =>
    simpa [h] using find_table_pointer_evolves env c ⟨lw, rw, le, re, cost⟩
  | none =>
    simpa [h] using find_table_pointer_evolves env c ⟨lw, rw, le, re, cost⟩

theorem pc_fn_evolves (env : Env) : EvolvesF (pc_fn env) := by
  intro c lw rw le re nc
  unfold pc_fn pseudocount
  exact table_lookup_evolves env c lw rw le re nc

theorem agg_over_evolves {f : CountFn} (hf : EvolvesF f) :
    ∀ (ks : List TKey) (c : Ctxt), Evolves c (agg_over f c ks).2 := by
  intro ks
  induction ks with
  | nil => intro c; exact evolves_refl c
  | cons k ks ih =>
    intro c
    simp only [agg_over]
    exact evolves_trans (hf c k.lw k.rw k.le k.re k.cost) (ih _)

theorem left_count_evolves {f : CountFn} (hf : EvolvesF f) (env : Env)
    (c : Ctxt) (lw w : Int) (le dleft : Option Nat) (lcost : Int) :
    Evolves c (left_count f env c lw w le dleft lcost).2 := by
  cases le with
  | none => exact evolves_refl c
  | some l =>
    cases dleft with
    | none => exact evolves_refl c
    | some dl =>
      cases hm : do_match env (env.conn l) (env.conn dl) lw w with
      | true =>
        have he : left_count f env c lw w (some l) (some dl) lcost
            = agg_over f c (left_keys env lw w l dl lcost) := by
          simp [left_count, hm]
        rw [he]
        exact agg_over_evolves hf _ c
      | false =>
        have he : left_count f env c lw w (some l) (some dl) lcost = (0, c) := by
          simp [left_count, hm]
        rw [he]
        exact evolves_refl c

theorem right_count_evolves {f : CountFn} (hf : EvolvesF f) (env : Env)
    (c : Ctxt) (w rw : Int) (dright re : Option Nat) (rcost : Int) :
    Evolves c (right_count f env c w rw dright re rcost).2 := by
  cases dright with
  | none => exact evolves_refl c
  | some dr =>
    cases re with
    | none => exact evolves_refl c
    | some r =>
      cases hm : do_match env (env.conn dr) (env.conn r) w rw with
      | true =>
        have he : right_count f env c w rw (some dr) (some r) rcost
            = agg_over f c (right_keys env w rw dr r rcost) := by
          simp [right_count, hm]
        rw [he]
        exact agg_over_evolves hf _ c
      | false =>
        have he : right_count f env c w rw (some dr) (some r) rcost = (0, c) := by
          simp [right_count, hm]
        rw [he]
        exact evolves_refl c

theorem extra_left_evolves {f : CountFn} (hf : EvolvesF f) (st : Int × Ctxt)
    (w rw : Int) (dright re : Option Nat) (rcost leftcount : Int) :
    Evolves st.2 (extra_left f st w rw dright re rcost leftcount).2 := by
  unfold extra_left
  by_cases hl : 0 < leftcount
  · rw [if_pos hl]
    exact hf st.2 w rw dright re rcost
  · rw [if_neg hl]
    exact evolves_refl _

theorem extra_right_evolves {f : CountFn} (hf : EvolvesF f) (st : Int × Ctxt)
    (lw w : Int) (le dleft : Option Nat) (lcost rightcount : Int) :
    Evolves st.2 (extra_right f st lw w le dleft lcost rightcount).2 := by
  unfold extra_right
  by_cases hl : le = none ∧ 0 < rightcount
  · rw [if_pos hl]
    exact hf st.2 lw w le dleft lcost
  · rw [if_neg hl]
    exact evolves_refl _

theorem count_branch_evolves {f : CountFn} (hf : EvolvesF f) (env : Env)
    (c : Ctxt) (lw rw w : Int) (le re : Option Nat) (d : Disjunct)
    (lcost rcost : Int) :
    Evolves c (count_branch f env c lw rw w le re d lcost rcost).2 := by
  simp only [count_branch]
  set L := left_count f env c lw w le d.left lcost
  set R := right_count f env L.2 w rw d.right re rcost
  exact evolves_trans (left_count_evolves hf env c lw w le d.left lcost)
    (evolves_trans (right_count_evolves hf env L.2 w rw d.right re rcost)
      (evolves_trans (extra_left_evolves hf (L.1 * R.1, R.2) w rw d.right re rcost L.1)
        (extra_right_evolves hf
          (extra_left f (L.1 * R.1, R.2) w rw d.right re rcost L.1)
          lw w le d.left lcost R.1)))

theorem step_lcost_evolves {f : CountFn} (hf : EvolvesF f) (env : Env)
    (lw rw w : Int) (le re : Option Nat) (d : Disjunct) (nc : Int)
    (acc : Int × Ctxt × Bool) (lcost : Int) :
    Evolves acc.2.1 (step_lcost f env lw rw w le re d nc acc lcost).2.1 := by
  obtain ⟨total, c, stopped⟩ := acc
  cases stopped with
  | true => exact evolves_refl c
  | false =>
    simp only [step_lcost]
    by_cases hp : (count_branch (pc_fn env) env c lw rw w le re d lcost (nc - lcost)).1 ≠ 0
    · rw [if_pos hp]
      have h1 := count_branch_evolves (pc_fn_evolves env) env c lw rw w le re d lcost (nc - lcost)
      have h2 := count_branch_evolves hf env
        (count_branch (pc_fn env) env c lw rw w le re d lcost (nc - lcost)).2
        lw rw w le re d lcost (nc - lcost)
      by_cases hm : INT_MAX < total +
          (count_branch f env
            (count_branch (pc_fn env) env c lw rw w le re d lcost (nc - lcost)).2
            lw rw w le re d lcost (nc - lcost)).1
      · rw [if_pos hm]
        exact evolves_trans h1 h2
      · rw [if_neg hm]
        exact evolves_trans h1 h2
    · rw [if_neg hp]
      exact count_branch_evolves (pc_fn_evolves env) env c lw rw w le re d lcost (nc - lcost)

theorem foldl_evolves {α : Type} (g : (Int × Ctxt × Bool) → α → (Int × Ctxt × Bool))
    (hg : ∀ acc x, Evolves acc.2.1 (g acc x).2.1) :
    ∀ (l : List α) (acc : Int × Ctxt × Bool),
      Evolves acc.2.1 (l.foldl g acc).2.1 := by
  intro l
  induction l with
  | nil => intro acc; exact evolves_refl _
  | cons x l ih =>
    intro acc
    rw [List.foldl_cons]
    exact evolves_trans (hg acc x) (ih (g acc x))

theorem step_disjunct_evolves {f : CountFn} (hf : EvolvesF f) (env : Env)
    (lw rw w : Int) (le re : Option Nat) (nc : Int)
    (acc : Int × Ctxt × Bool) (d : Disjunct) :
    Evolves acc.2.1 (step_disjunct f env lw rw w le re nc acc d).2.1 := by
  unfold step_disjunct
  exact foldl_evolves _ (fun acc x => step_lcost_evolves hf env lw rw w le re d nc acc x) _ acc

theorem step_word_evolves {f : CountFn} (hf : EvolvesF f) (env : Env)
    (lw rw : Int) (le re : Option Nat) (nc : Int)
    (acc : Int × Ctxt × Bool) (w : Int) :
    Evolves acc.2.1 (step_word f env lw rw le re nc acc w).2.1 := by
  unfold step_word
  exact foldl_evolves _ (fun acc d => step_disjunct_evolves hf env lw rw w le re nc acc d) _ acc

theorem null_sum_evolves {f : CountFn} (hf : EvolvesF f) (w rw nc : Int) :
    ∀ (ds : List Disjunct) (c : Ctxt), Evolves c (null_sum f c w rw nc ds).2 := by
  intro ds
  induction ds with
  | nil => intro c; exact evolves_refl c
  | cons d ds ih =>
    intro c
    simp only [null_sum]
    by_cases hd : d.left = none
    · rw [if_pos hd]
      exact evolves_trans (hf c w rw d.right none (nc - 1)) (ih _)
    · rw [if_neg hd]
      exact ih c

theorem null_words_total_evolves {f : CountFn} (hf : EvolvesF f)
    (c : Ctxt) (w rw nc : Int) (ds : List Disjunct) :
    Evolves c (null_words_total f c w rw nc ds).2 := by
  simp only [null_words_total]
  exact evolves_trans (null_sum_evolves hf w rw nc ds c)
    (hf (null_sum f c w rw nc ds).2 w rw none none (nc - 1))

theorem do_count_body_evolves {f : CountFn} (hf : EvolvesF f) (env : Env)
    (c : Ctxt) (lw rw : Int) (le re : Option Nat) (nc : Int) :
    Evolves c (do_count_body f env c lw rw le re nc).2 := by
  unfold do_count_body
  by_cases h0 : nc < 0
  · rw [if_pos h0]
    exact evolves_refl c
  · rw [if_neg h0]
    simp only
    cases hfp : (find_table_pointer env c ⟨lw, rw, le, re, nc⟩).1 with
    | some cnt =>
      exact find_table_pointer_evolves env c ⟨lw, rw, le, re, nc⟩
    | none =>
      obtain ⟨habs, -, heq⟩ := ftp_none_inv env c ⟨lw, rw, le, re, nc⟩ hfp
      set k : TKey := ⟨lw, rw, le, re, nc⟩ with hk
      set c' := (find_table_pointer env c k).2 with hc'
      have habs' : table_find c'.table k = none := by
        rw [heq]
        exact habs
      have hev0 : Evolves c c' := find_table_pointer_evolves env c k
      have hstore : Evolves c (table_store c' k 0) :=
        evolves_trans hev0 (evolves_store_absent c' k 0 habs')
      by_cases hadj : rw = lw + 1
      · rw [if_pos hadj]
        exact evolves_ctxt_set_absent k _ habs hstore
      · rw [if_neg hadj]
        by_cases hbn : le = none ∧ re = none
        · rw [if_pos hbn]
          by_cases hisl : (table_store c' k 0).islands_ok = false ∧ lw ≠ -1
          · rw [if_pos hisl]
            exact evolves_ctxt_set_absent k _ habs hstore
          · rw [if_neg hisl]
            by_cases hz : nc = 0
            · rw [if_pos hz]
              exact evolves_ctxt_set_absent k _ habs hstore
            · rw [if_neg hz]
              refine evolves_ctxt_set_absent k _ habs ?_
              exact evolves_trans hstore
                (null_words_total_evolves hf (table_store c' k 0) (lw + 1) rw nc
                  (env.local_sent (lw + 1)))
        · rw [if_neg hbn]
          refine evolves_ctxt_set_absent k _ habs ?_
          exact evolves_trans hstore
            (foldl_evolves _
              (fun acc x => step_word_evolves hf env lw rw le re nc acc x) _
              (0, table_store c' k 0, false))

theorem do_count_evolves (fuel : Nat) (env : Env) : EvolvesF (do_count fuel env) := by
  induction fuel with
  | zero => intro c lw rw le re nc; exact evolves_refl c
  | succ fuel ih =>
    intro c lw rw le re nc
    simp only [do_count]
    exact do_count_body_evolves ih env c lw rw le re nc

/-! ### Pseudocount and memo-hit facts -/

theorem table_lookup_eq_some (env : Env) (c : Ctxt) (lw rw : Int)
    (le re : Option Nat) (cost cnt : Int)
    (h : (find_table_pointer env c ⟨lw, rw, le, re, cost⟩).1 = some cnt) :
    table_lookup env c lw rw le re cost
      = (cnt, (find_table_pointer env c ⟨lw, rw, le, re, cost⟩).2) := by
  simp only [table_lookup]
  rw [h]

theorem table_lookup_eq_none (env : Env) (c : Ctxt) (lw rw : Int)
    (le re : Option Nat) (cost : Int)
    (h : (find_table_pointer env c ⟨lw, rw, le, re, cost⟩).1 = none) :
    table_lookup env c lw rw le re cost
      = (-1, (find_table_pointer env c ⟨lw, rw, le, re, cost⟩).2) := by
  simp only [table_lookup]
  rw [h]

theorem pc_cases (env : Env) (c : Ctxt) (lw rw : Int) (le re : Option Nat)
    (nc : Int) :
    (pc_fn env c lw rw le re nc).1 = 0 ∨ (pc_fn env c lw rw le re nc).1 = 1 := by
  unfold pc_fn pseudocount
  by_cases h : (table_lookup env c lw rw le re nc).1 = 0
  · left; simp [h]
  · right; simp [h]

theorem pc_nonneg (env : Env) (c : Ctxt) (lw rw : Int) (le re : Option Nat)
    (nc : Int) : 0 ≤ (pc_fn env c lw rw le re nc).1 := by
  rcases pc_cases env c lw rw le re nc with h | h <;> omega

/-- A pseudocount of zero leaves — in the state it returns — a memo
entry with count `0` for exactly the queried key (either it was
already stored, or exhaustion just stuffed it). -/
theorem pc_zero_mem (env : Env) (c : Ctxt) (lw rw : Int) (le re : Option Nat)
    (nc : Int) (h : (pc_fn env c lw rw le re nc).1 = 0) :
    table_find (pc_fn env c lw rw le re nc).2.table ⟨lw, rw, le, re, nc⟩ = some 0 := by
  unfold pc_fn pseudocount at h ⊢
  by_cases hz : (table_lookup env c lw rw le re nc).1 = 0
  · show table_find (table_lookup env c lw rw le re nc).2.table ⟨lw, rw, le, re, nc⟩ = some 0
    cases hfp : (find_table_pointer env c ⟨lw, rw, le, re, nc⟩).1 with
    | some cnt =>
      rw [table_lookup_eq_some env c lw rw le re nc cnt hfp] at hz ⊢
      have hcnt : cnt = 0 := hz
      subst hcnt
      rcases ftp_some_inv env c _ 0 hfp with ⟨hfind, hst⟩ | ⟨-, -, -, hst⟩
      · show table_find (find_table_pointer env c ⟨lw, rw, le, re, nc⟩).2.table
          ⟨lw, rw, le, re, nc⟩ = some 0
        rw [hst]
        exact hfind
      · show table_find (find_table_pointer env c ⟨lw, rw, le, re, nc⟩).2.table
          ⟨lw, rw, le, re, nc⟩ = some 0
        rw [hst]
        exact table_find_cons_self _ _ 0
    | none =>
      rw [table_lookup_eq_none env c lw rw le re nc hfp] at hz
      norm_num at hz
  · simp [hz] at h

/-- A key stored with count `0` makes `do_count` return `0` without
touching the state, at every fuel. -/
theorem do_count_hit_zero (fuel : Nat) (env : Env) (c : Ctxt) (lw rw : Int)
    (le re : Option Nat) (nc : Int)
    (h : table_find c.table ⟨lw, rw, le, re, nc⟩ = some 0) :
    do_count fuel env c lw rw le re nc = (0, c) := by
  cases fuel with
  | zero => rfl
  | succ fuel =>
    simp only [do_count]
    by_cases h0 : nc < 0
    · unfold do_count_body
      rw [if_pos h0]
    · simp only [do_count_body]
      rw [if_neg h0, ftp_hit env c ⟨lw, rw, le, re, nc⟩ 0 h]

/-- A memo hit returns the stored count with the state unchanged. -/
theorem do_count_hit (fuel : Nat) (env : Env) (c : Ctxt) (lw rw : Int)
    (le re : Option Nat) (nc cnt : Int) (hfuel : 1 ≤ fuel) (h0 : 0 ≤ nc)
    (h : table_find c.table ⟨lw, rw, le, re, nc⟩ = some cnt) :
    do_count fuel env c lw rw le re nc = (cnt, c) := by
  cases fuel with
  | zero => omega
  | succ fuel =>
    simp only [do_count]
    simp only [do_count_body]
    rw [if_neg (by omega : ¬ nc < 0), ftp_hit env c ⟨lw, rw, le, re, nc⟩ cnt h]

/-! ### Zero pseudocounts force zero real counts -/

theorem agg_over_pc (env : Env) :
    ∀ (ks : List TKey) (c : Ctxt),
      0 ≤ (agg_over (pc_fn env) c ks).1 ∧
      ((agg_over (pc_fn env) c ks).1 = 0 →
        ∀ k ∈ ks, table_find (agg_over (pc_fn env) c ks).2.table k = some 0) := by
  intro ks
  induction ks with
  | nil =>
    intro c
    exact ⟨le_refl 0, fun _ k hk => absurd hk (List.not_mem_nil k)⟩
  | cons k ks ih =>
    intro c
    simp only [agg_over]
    have hp := pc_nonneg env c k.lw k.rw k.le k.re k.cost
    have hrest := ih (pc_fn env c k.lw k.rw k.le k.re k.cost).2
    constructor
    · omega
    · intro hz k' hk'
      have hps : (pc_fn env c k.lw k.rw k.le k.re k.cost).1 = 0 ∧
          (agg_over (pc_fn env) (pc_fn env c k.lw k.rw k.le k.re k.cost).2 ks).1 = 0 := by
        constructor <;> omega
      rcases List.mem_cons.mp hk' with he | hm
      · subst he
        have hmem := pc_zero_mem env c k'.lw k'.rw k'.le k'.re k'.cost hps.1
        have hev := agg_over_evolves (pc_fn_evolves env) ks
          (pc_fn env c k'.lw k'.rw k'.le k'.re k'.cost).2
        exact hev.1 k' 0 hmem
      · exact hrest.2 hps.2 k' hm

theorem agg_over_real_zero (env : Env) (fuel : Nat) :
    ∀ (ks : List TKey) (c : Ctxt),
      (∀ k ∈ ks, table_find c.table k = some 0) →
      agg_over (do_count fuel env) c ks = (0, c) := by
  intro ks
  induction ks with
  | nil => intro c _; rfl
  | cons k ks ih =>
    intro c hks
    simp only [agg_over]
    rw [do_count_hit_zero fuel env c k.lw k.rw k.le k.re k.cost
      (hks k (List.mem_cons_self k ks))]
    rw [ih c (fun k' hk' => hks k' (List.mem_cons_of_mem k hk'))]
    simp

/-- Equation lemmas for the gated aggregations. -/
theorem left_count_match {f : CountFn} (env : Env) (c : Ctxt) (lw w : Int)
    (l dl : Nat) (lcost : Int)
    (hm : do_match env (env.conn l) (env.conn dl) lw w = true) :
    left_count f env c lw w (some l) (some dl) lcost
      = agg_over f c (left_keys env lw w l dl lcost) := by
  simp [left_count, hm]

theorem left_count_nomatch {f : CountFn} (env : Env) (c : Ctxt) (lw w : Int)
    (l dl : Nat) (lcost : Int)
    (hm : do_match env (env.conn l) (env.conn dl) lw w = false) :
    left_count f env c lw w (some l) (some dl) lcost = (0, c) := by
  simp [left_count, hm]

theorem right_count_match {f : CountFn} (env : Env) (c : Ctxt) (w rw : Int)
    (dr r : Nat) (rcost : Int)
    (hm : do_match env (env.conn dr) (env.conn r) w rw = true) :
    right_count f env c w rw (some dr) (some r) rcost
      = agg_over f c (right_keys env w rw dr r rcost) := by
  simp [right_count, hm]

theorem right_count_nomatch {f : CountFn} (env : Env) (c : Ctxt) (w rw : Int)
    (dr r : Nat) (rcost : Int)
    (hm : do_match env (env.conn dr) (env.conn r) w rw = false) :
    right_count f env c w rw (some dr) (some r) rcost = (0, c) := by
  simp [right_count, hm]

theorem left_count_pc_nonneg (env : Env) (c : Ctxt) (lw w : Int)
    (le dleft : Option Nat) (lcost : Int) :
    0 ≤ (left_count (pc_fn env) env c lw w le dleft lcost).1 := by
  cases le with
  | none => cases dleft <;> exact le_refl 0
  | some l =>
    cases dleft with
    | none => exact le_refl 0
    | some dl =>
      cases hm : do_match env (env.conn l) (env.conn dl) lw w with
      | true =>
        rw [left_count_match env c lw w l dl lcost hm]
        exact (agg_over_pc env _ c).1
      | false =>
        rw [left_count_nomatch env c lw w l dl lcost hm]

theorem right_count_pc_nonneg (env : Env) (c : Ctxt) (w rw : Int)
    (dright re : Option Nat) (rcost : Int) :
    0 ≤ (right_count (pc_fn env) env c w rw dright re rcost).1 := by
  cases dright with
  | none => cases re <;> exact le_refl 0
  | some dr =>
    cases re with
    | none => exact le_refl 0
    | some r =>
      cases hm : do_match env (env.conn dr) (env.conn r) w rw with
      | true =>
        rw [right_count_match env c w rw dr r rcost hm]
        exact (agg_over_pc env _ c).1
      | false =>
        rw [right_count_nomatch env c w rw dr r rcost hm]

/-- If the pseudocount leftcount is zero, the real leftcount over any
state that has kept the pseudocount pass's zero entries is zero, and
the state is untouched. -/
theorem left_count_real_zero (env : Env) (fuel : Nat) (lw w : Int)
    (le dleft : Option Nat) (lcost : Int) (c c'' : Ctxt)
    (hz : (left_count (pc_fn env) env c lw w le dleft lcost).1 = 0)
    (htr : ∀ k v,
      table_find (left_count (pc_fn env) env c lw w le dleft lcost).2.table k = some v →
      table_find c''.table k = some v) :
    left_count (do_count fuel env) env c'' lw w le dleft lcost = (0, c'') := by
  cases le with
  | none => cases dleft <;> rfl
  | some l =>
    cases dleft with
    | none => rfl
    | some dl =>
      cases hm : do_match env (env.conn l) (env.conn dl) lw w with
      | false => rw [left_count_nomatch env c'' lw w l dl lcost hm]
      | true =>
        rw [left_count_match env c lw w l dl lcost hm] at hz htr
        rw [left_count_match env c'' lw w l dl lcost hm]
        refine agg_over_real_zero env fuel _ c'' (fun k hk => ?_)
        exact htr k 0 ((agg_over_pc env _ c).2 hz k hk)

theorem right_count_real_zero (env : Env) (fuel : Nat) (w rw : Int)
    (dright re : Option Nat) (rcost : Int) (c c'' : Ctxt)
    (hz : (right_count (pc_fn env) env c w rw dright re rcost).1 = 0)
    (htr : ∀ k v,
      table_find (right_count (pc_fn env) env c w rw dright re rcost).2.table k = some v →
      table_find c''.table k = some v) :
    right_count (do_count fuel env) env c'' w rw dright re rcost = (0, c'') := by
  cases dright with
  | none => cases re <;> rfl
  | some dr =>
    cases re with
    | none => rfl
    | some r =>
      cases hm : do_match env (env.conn dr) (env.conn r) w rw with
      | false => rw [right_count_nomatch env c'' w rw dr r rcost hm]
      | true =>
        rw [right_count_match env c w rw dr r rcost hm] at hz htr
        rw [right_count_match env c'' w rw dr r rcost hm]
        refine agg_over_real_zero env fuel _ c'' (fun k hk => ?_)
        exact htr k 0 ((agg_over_pc env _ c).2 hz k hk)

/-! ### Pseudototal soundness -/

theorem extra_left_pos_pair {f : CountFn} (t : Int) (c : Ctxt) (w rw : Int)
    (dright re : Option Nat) (rcost leftcount : Int) (h : 0 < leftcount) :
    extra_left f (t, c) w rw dright re rcost leftcount
      = (t + leftcount * (f c w rw dright re rcost).1,
         (f c w rw dright re rcost).2) := by
  unfold extra_left
  rw [if_pos h]

theorem extra_left_neg_pair {f : CountFn} (t : Int) (c : Ctxt) (w rw : Int)
    (dright re : Option Nat) (rcost leftcount : Int) (h : ¬ 0 < leftcount) :
    extra_left f (t, c) w rw dright re rcost leftcount = (t, c) := by
  unfold extra_left
  rw [if_neg h]

theorem extra_right_pos_pair {f : CountFn} (t : Int) (c : Ctxt) (lw w : Int)
    (le dleft : Option Nat) (lcost rightcount : Int)
    (h : le = none ∧ 0 < rightcount) :
    extra_right f (t, c) lw w le dleft lcost rightcount
      = (t + rightcount * (f c lw w le dleft lcost).1,
         (f c lw w le dleft lcost).2) := by
  unfold extra_right
  rw [if_pos h]

theorem extra_right_neg_pair {f : CountFn} (t : Int) (c : Ctxt) (lw w : Int)
    (le dleft : Option Nat) (lcost rightcount : Int)
    (h : ¬ (le = none ∧ 0 < rightcount)) :
    extra_right f (t, c) lw w le dleft lcost rightcount = (t, c) := by
  unfold extra_right
  rw [if_neg h]

/-- Main pseudocount-soundness lemma: whenever the pseudototal of one
(split word, disjunct, cost partition) branch is zero, the real total
— the identical aggregation with `do_count` substituted for
`pseudocount`, run from the state the pseudototal pass left — is zero
too, at every fuel. -/
theorem count_branch_pc_zero (env : Env) (fuel : Nat) (c : Ctxt) (lw rw w : Int)
    (le re : Option Nat) (d : Disjunct) (lcost rcost : Int)
    (hz : (count_branch (pc_fn env) env c lw rw w le re d lcost rcost).1 = 0) :
    (count_branch (do_count fuel env) env
      (count_branch (pc_fn env) env c lw rw w le re d lcost rcost).2
      lw rw w le re d lcost rcost).1 = 0 := by
  have hLn := left_count_pc_nonneg env c lw w le d.left lcost
  have hRn := right_count_pc_nonneg env
    (left_count (pc_fn env) env c lw w le d.left lcost).2 w rw d.right re rcost
  simp only [count_branch] at hz ⊢
  set L := left_count (pc_fn env) env c lw w le d.left lcost with hLdef
  set R := right_count (pc_fn env) env L.2 w rw d.right re rcost with hRdef
  have hevL : Evolves c L.2 :=
    left_count_evolves (pc_fn_evolves env) env c lw w le d.left lcost
  have hevR : Evolves L.2 R.2 :=
    right_count_evolves (pc_fn_evolves env) env L.2 w rw d.right re rcost
  rcases hLn.lt_or_eq with hLpos | hL0
  · -- leftcount pseudocount is positive: the extra left pseudocount ran
    rw [extra_left_pos_pair _ _ _ _ _ _ _ _ hLpos] at hz ⊢
    set q1 := pc_fn env R.2 w rw d.right re rcost with hq1def
    have hq1n : 0 ≤ q1.1 := pc_nonneg env R.2 w rw d.right re rcost
    have hg2 : ¬ (le = none ∧ 0 < R.1) := by
      rintro ⟨hle, hRpos⟩
      rw [extra_right_pos_pair _ _ _ _ _ _ _ _ ⟨hle, hRpos⟩] at hz
      have hz' : L.1 * R.1 + L.1 * q1.1
          + R.1 * (pc_fn env q1.2 lw w le d.left lcost).1 = 0 := hz
      have h1 : 0 < L.1 * R.1 := mul_pos hLpos hRpos
      have h2 : 0 ≤ L.1 * q1.1 := mul_nonneg (le_of_lt hLpos) hq1n
      have h3 : 0 ≤ R.1 * (pc_fn env q1.2 lw w le d.left lcost).1 :=
        mul_nonneg (le_of_lt hRpos) (pc_nonneg env q1.2 lw w le d.left lcost)
      linarith
    rw [extra_right_neg_pair _ _ _ _ _ _ _ _ hg2] at hz ⊢
    -- hz : L.1 * R.1 + L.1 * q1.1 = 0 forces R.1 = 0 and q1.1 = 0
    have hz' : L.1 * R.1 + L.1 * q1.1 = 0 := hz
    have hLR : L.1 * R.1 = 0 ∧ L.1 * q1.1 = 0 := by
      have h2 : 0 ≤ L.1 * R.1 := mul_nonneg (le_of_lt hLpos) hRn
      have h3 : 0 ≤ L.1 * q1.1 := mul_nonneg (le_of_lt hLpos) hq1n
      constructor <;> linarith
    have hR0 : R.1 = 0 := by
      rcases mul_eq_zero.mp hLR.1 with h | h
      · exact absurd h (ne_of_gt hLpos)
      · exact h
    have hq10 : q1.1 = 0 := by
      rcases mul_eq_zero.mp hLR.2 with h | h
      · exact absurd h (ne_of_gt hLpos)
      · exact h
    have hq1mem : table_find q1.2.table ⟨w, rw, d.right, re, rcost⟩ = some 0 :=
      pc_zero_mem env R.2 w rw d.right re rcost hq10
    have hevq1 : Evolves R.2 q1.2 :=
      pc_fn_evolves env R.2 w rw d.right re rcost
    -- real pass, from the pseudototal state q1.2
    set L' := left_count (do_count fuel env) env q1.2 lw w le d.left lcost with hL'def
    have hevL' : Evolves q1.2 L'.2 :=
      left_count_evolves (do_count_evolves fuel env) env q1.2 lw w le d.left lcost
    have hreR : right_count (do_count fuel env) env L'.2 w rw d.right re rcost
        = (0, L'.2) := by
      refine right_count_real_zero env fuel w rw d.right re rcost L.2 L'.2 hR0 ?_
      intro k v hv
      exact hevL'.1 k v (hevq1.1 k v hv)
    rw [hreR]
    have hfindq : table_find L'.2.table ⟨w, rw, d.right, re, rcost⟩ = some 0 :=
      hevL'.1 _ 0 hq1mem
    by_cases hl' : 0 < L'.1
    · rw [extra_left_pos_pair _ _ _ _ _ _ _ _ hl']
      rw [do_count_hit_zero fuel env L'.2 w rw d.right re rcost hfindq]
      rw [extra_right_neg_pair _ _ _ _ _ _ _ _ (by simp : ¬ (le = none ∧ (0:Int) < 0))]
      simp
    · rw [extra_left_neg_pair _ _ _ _ _ _ _ _ hl']
      rw [extra_right_neg_pair _ _ _ _ _ _ _ _ (by simp : ¬ (le = none ∧ (0:Int) < 0))]
      simp
  · -- leftcount pseudocount is zero
    have hL0' : L.1 = 0 := hL0.symm
    have hnotpos : ¬ 0 < L.1 := by omega
    rw [extra_left_neg_pair _ _ _ _ _ _ _ _ hnotpos] at hz ⊢
    by_cases hg2 : le = none ∧ 0 < R.1
    · -- the extra right pseudocount ran and must be zero
      rw [extra_right_pos_pair _ _ _ _ _ _ _ _ hg2] at hz ⊢
      set q2 := pc_fn env R.2 lw w le d.left lcost with hq2def
      have hq2n : 0 ≤ q2.1 := pc_nonneg env R.2 lw w le d.left lcost
      have hq20 : q2.1 = 0 := by
        have hz' : L.1 * R.1 + R.1 * q2.1 = 0 := hz
        have h1 : L.1 * R.1 = 0 := by rw [hL0']; ring
        have h2 : 0 ≤ R.1 * q2.1 := mul_nonneg (le_of_lt hg2.2) hq2n
        have h3 : R.1 * q2.1 = 0 := by linarith
        rcases mul_eq_zero.mp h3 with h | h
        · exact absurd h (ne_of_gt hg2.2)
        · exact h
      have hq2mem : table_find q2.2.table ⟨lw, w, le, d.left, lcost⟩ = some 0 :=
        pc_zero_mem env R.2 lw w le d.left lcost hq20
      have hevq2 : Evolves R.2 q2.2 :=
        pc_fn_evolves env R.2 lw w le d.left lcost
      -- real pass from q2.2: the real leftcount is zero
      have hreL : left_count (do_count fuel env) env q2.2 lw w le d.left lcost
          = (0, q2.2) := by
        refine left_count_real_zero env fuel lw w le d.left lcost c q2.2 hL0' ?_
        intro k v hv
        exact hevq2.1 k v (hevR.1 k v hv)
      rw [hreL]
      set R' := right_count (do_count fuel env) env q2.2 w rw d.right re rcost
        with hR'def
      have hevR' : Evolves q2.2 R'.2 :=
        right_count_evolves (do_count_evolves fuel env) env q2.2 w rw d.right re rcost
      rw [extra_left_neg_pair _ _ _ _ _ _ _ _ (by simp : ¬ (0:Int) < 0)]
      by_cases hr' : le = none ∧ 0 < R'.1
      · rw [extra_right_pos_pair _ _ _ _ _ _ _ _ hr']
        have hfindq : table_find R'.2.table ⟨lw, w, le, d.left, lcost⟩ = some 0 :=
          hevR'.1 _ 0 hq2mem
        rw [do_count_hit_zero fuel env R'.2 lw w le d.left lcost hfindq]
        simp
      · rw [extra_right_neg_pair _ _ _ _ _ _ _ _ hr']
        simp
    · -- no extra pseudocount ran at all
      rw [extra_right_neg_pair _ _ _ _ _ _ _ _ hg2] at hz ⊢
      -- the real leftcount is zero from the state R.2 itself
      have hreL : left_count (do_count fuel env) env R.2 lw w le d.left lcost
          = (0, R.2) := by
        refine left_count_real_zero env fuel lw w le d.left lcost c R.2 hL0' ?_
        intro k v hv
        exact hevR.1 k v hv
      rw [hreL]
      set R' := right_count (do_count fuel env) env R.2 w rw d.right re rcost
        with hR'def
      have hR'z : R'.1 = 0 ∨ le ≠ none := by
        by_cases hle : le = none
        · left
          have : R' = (0, R.2) := by
            refine right_count_real_zero env fuel w rw d.right re rcost L.2 R.2 ?_ ?_
            · by_contra hne
              exact hg2 ⟨hle, lt_of_le_of_ne hRn (Ne.symm hne)⟩
            · exact fun k v hv => hv
          rw [this]
        · right; exact hle
      rw [extra_left_neg_pair _ _ _ _ _ _ _ _ (by simp : ¬ (0:Int) < 0)]
      have hg2' : ¬ (le = none ∧ 0 < R'.1) := by
        rintro ⟨hle, hpos⟩
        rcases hR'z with h | h
        · omega
        · exact h hle
      rw [extra_right_neg_pair _ _ _ _ _ _ _ _ hg2']
      simp

/-! ### Saturation bound for the general loop -/

theorem step_lcost_bound {f : CountFn} (env : Env) (lw rw w : Int)
    (le re : Option Nat) (d : Disjunct) (nc : Int)
    (acc : Int × Ctxt × Bool) (lcost : Int) (h : acc.1 ≤ INT_MAX) :
    (step_lcost f env lw rw w le re d nc acc lcost).1 ≤ INT_MAX := by
  obtain ⟨total, c, stopped⟩ := acc
  cases stopped with
  | true => exact h
  | false =>
    simp only [step_lcost]
    by_cases hp : (count_branch (pc_fn env) env c lw rw w le re d lcost (nc - lcost)).1 ≠ 0
    · rw [if_pos hp]
      by_cases hm : INT_MAX < total +
          (count_branch f env
            (count_branch (pc_fn env) env c lw rw w le re d lcost (nc - lcost)).2
            lw rw w le re d lcost (nc - lcost)).1
      · rw [if_pos hm]
      · rw [if_neg hm]
        exact le_of_not_lt hm
    · rw [if_neg hp]
      exact h

theorem foldl_bound {α : Type} (g : (Int × Ctxt × Bool) → α → (Int × Ctxt × Bool))
    (hg : ∀ acc x, acc.1 ≤ INT_MAX → (g acc x).1 ≤ INT_MAX) :
    ∀ (l : List α) (acc : Int × Ctxt × Bool),
      acc.1 ≤ INT_MAX → (l.foldl g acc).1 ≤ INT_MAX := by
  intro l
  induction l with
  | nil => intro acc h; exact h
  | cons x l ih =>
    intro acc h
    rw [List.foldl_cons]
    exact ih (g acc x) (hg acc x h)

theorem step_disjunct_bound {f : CountFn} (env : Env) (lw rw w : Int)
    (le re : Option Nat) (nc : Int)
    (acc : Int × Ctxt × Bool) (d : Disjunct) (h : acc.1 ≤ INT_MAX) :
    (step_disjunct f env lw rw w le re nc acc d).1 ≤ INT_MAX := by
  unfold step_disjunct
  exact foldl_bound _ (fun acc x hx => step_lcost_bound env lw rw w le re d nc acc x hx)
    _ acc h

theorem step_word_bound {f : CountFn} (env : Env) (lw rw : Int)
    (le re : Option Nat) (nc : Int)
    (acc : Int × Ctxt × Bool) (w : Int) (h : acc.1 ≤ INT_MAX) :
    (step_word f env lw rw le re nc acc w).1 ≤ INT_MAX := by
  unfold step_word
  exact foldl_bound _ (fun acc d hd => step_disjunct_bound env lw rw w le re nc acc d hd)
    _ acc h

/-- With at least one boundary connector pending and a fresh key, every
`do_count` return value is clamped at `INT_MAX` by the main loop. -/
theorem do_count_general_bound (fuel : Nat) (env : Env) (c : Ctxt) (lw rw : Int)
    (le re : Option Nat) (nc : Int) (hne : ¬ (le = none ∧ re = none))
    (habs : table_find c.table ⟨lw, rw, le, re, nc⟩ = none) :
    (do_count fuel env c lw rw le re nc).1 ≤ INT_MAX := by
  cases fuel with
  | zero =>
    show (0 : Int) ≤ INT_MAX
    unfold INT_MAX
    norm_num
  | succ fuel =>
    simp only [do_count, do_count_body]
    by_cases h0 : nc < 0
    · rw [if_pos h0]
      show (0 : Int) ≤ INT_MAX
      unfold INT_MAX
      norm_num
    · rw [if_neg h0]
      by_cases hpf : poll_fires env c
      · rw [ftp_stuff env c ⟨lw, rw, le, re, nc⟩ habs hpf]
        show (0 : Int) ≤ INT_MAX
        unfold INT_MAX
        norm_num
      · rw [ftp_miss env c ⟨lw, rw, le, re, nc⟩ habs hpf]
        by_cases hadj : rw = lw + 1
        · rw [if_pos hadj]
          by_cases hb : le = none ∧ re = none ∧ nc = 0
          · rw [if_pos hb]
            unfold INT_MAX
            norm_num
          · rw [if_neg hb]
            unfold INT_MAX
            norm_num
        · rw [if_neg hadj]
          rw [if_neg hne]
          refine foldl_bound _
            (fun acc x hx => step_word_bound env lw rw le re nc acc x hx) _ _ ?_
          show (0 : Int) ≤ INT_MAX
          unfold INT_MAX
          norm_num

/-! ### Memoization discipline -/

theorem foldl_evolves_from {α : Type}
    (g : (Int × Ctxt × Bool) → α → (Int × Ctxt × Bool))
    (hg : ∀ acc x, Evolves acc.2.1 (g acc x).2.1)
    (l : List α) (t : Int) (c0 : Ctxt) (b : Bool) :
    Evolves c0 (List.foldl g (t, c0, b) l).2.1 :=
  foldl_evolves g hg l (t, c0, b)

/-- After any sufficiently fueled `do_count` call with a legal null
count, the key of the call is in the table and carries exactly the
returned count — whether the call was a hit, a zero-stuff, or a fresh
frame that finalized its tentative entry. -/
theorem do_count_entry (fuel : Nat) (env : Env) (c : Ctxt) (lw rw : Int)
    (le re : Option Nat) (nc : Int) (hfuel : 1 ≤ fuel) (h0 : 0 ≤ nc) :
    table_find (do_count fuel env c lw rw le re nc).2.table ⟨lw, rw, le, re, nc⟩
      = some (do_count fuel env c lw rw le re nc).1 := by
  cases fuel with
  | zero => omega
  | succ fuel =>
    simp only [do_count, do_count_body]
    rw [if_neg (by omega : ¬ nc < 0)]
    set k : TKey := ⟨lw, rw, le, re, nc⟩ with hk
    cases hf : table_find c.table k with
    | some cnt =>
      rw [ftp_hit env c k cnt hf]
      exact hf
    | none =>
      by_cases hpf : poll_fires env c
      · rw [ftp_stuff env c k hf hpf]
        exact table_find_cons_self _ k 0
      · rw [ftp_miss env c k hf hpf]
        set c' : Ctxt := { c with checktimer := c.checktimer + 1 } with hc'
        have habs' : table_find c'.table k = none := hf
        have hpres : table_find (table_store c' k 0).table k = some 0 :=
          table_find_cons_self _ k 0
        by_cases hadj : rw = lw + 1
        · rw [if_pos hadj]
          exact table_find_set_self _ k 0 _ hpres
        · rw [if_neg hadj]
          by_cases hbn : le = none ∧ re = none
          · rw [if_pos hbn]
            by_cases hisl : (table_store c' k 0).islands_ok = false ∧ lw ≠ -1
            · rw [if_pos hisl]
              exact table_find_set_self _ k 0 _ hpres
            · rw [if_neg hisl]
              by_cases hz : nc = 0
              · rw [if_pos hz]
                exact table_find_set_self _ k 0 _ hpres
              · rw [if_neg hz]
                have hev : Evolves (table_store c' k 0)
                    (null_words_total (do_count fuel env) (table_store c' k 0)
                      (lw + 1) rw nc (env.local_sent (lw + 1))).2 :=
                  null_words_total_evolves (do_count_evolves fuel env) _ _ _ _ _
                exact table_find_set_self _ k 0 _ (hev.1 k 0 hpres)
          · rw [if_neg hbn]
            exact table_find_set_self _ k 0 _
              ((foldl_evolves_from (step_word (do_count fuel env) env lw rw le re nc)
                (fun acc x => step_word_evolves (do_count_evolves fuel env) env
                  lw rw le re nc acc x) _ 0 (table_store c' k 0) false).1 k 0 hpres)

/-! ### Exhaustion -/

/-- Once exhausted, a fresh (unmemoized) subproblem is answered `0`
immediately: `find_table_pointer` stuffs a permanent zero entry and
`do_count` returns its count without recursing. -/
theorem do_count_exhausted_fresh (fuel : Nat) (env : Env) (c : Ctxt)
    (lw rw : Int) (le re : Option Nat) (nc : Int)
    (hex : c.exhausted = true)
    (habs : table_find c.table ⟨lw, rw, le, re, nc⟩ = none) :
    (do_count fuel env c lw rw le re nc).1 = 0 := by
  cases fuel with
  | zero => rfl
  | succ fuel =>
    simp only [do_count, do_count_body]
    by_cases h0 : nc < 0
    · rw [if_pos h0]
    · rw [if_neg h0, ftp_stuff env c ⟨lw, rw, le, re, nc⟩ habs (Or.inl hex)]

/-! ### Base cases -/

/-- Adjacent-words base case, on a fresh key with no zero-stuffing. -/
theorem do_count_adjacent (fuel : Nat) (env : Env) (c : Ctxt) (lw rw : Int)
    (le re : Option Nat) (nc : Int) (hfuel : 1 ≤ fuel) (h0 : 0 ≤ nc)
    (habs : table_find c.table ⟨lw, rw, le, re, nc⟩ = none)
    (hnp : ¬ poll_fires env c) (hadj : rw = lw + 1) :
    (do_count fuel env c lw rw le re nc).1
      = (if le = none ∧ re = none ∧ nc = 0 then 1 else 0) := by
  cases fuel with
  | zero => omega
  | succ fuel =>
    simp only [do_count, do_count_body]
    rw [if_neg (by omega : ¬ nc < 0),
      ftp_miss env c ⟨lw, rw, le, re, nc⟩ habs hnp, if_pos hadj]

/-- Islands-disallowed closed form, on a fresh key with no
zero-stuffing: `1` iff the null count is exactly
`ceil((rw - lw - 1) / null_block)`, computed as in the source by
`(rw - lw - 1 + null_block - 1) / null_block`. -/
theorem do_count_islands (fuel : Nat) (env : Env) (c : Ctxt) (lw rw : Int)
    (nc : Int) (hfuel : 1 ≤ fuel) (h0 : 0 ≤ nc)
    (habs : table_find c.table ⟨lw, rw, none, none, nc⟩ = none)
    (hnp : ¬ poll_fires env c) (hadj : rw ≠ lw + 1)
    (hisl : c.islands_ok = false) (hlw : lw ≠ -1) :
    (do_count fuel env c lw rw none none nc).1
      = (if nc = (rw - lw - 1 + c.null_block - 1) / c.null_block then 1 else 0) := by
  cases fuel with
  | zero => omega
  | succ fuel =>
    simp only [do_count, do_count_body]
    rw [if_neg (by omega : ¬ nc < 0),
      ftp_miss env c ⟨lw, rw, none, none, nc⟩ habs hnp, if_neg hadj,
      if_pos (⟨trivial, trivial⟩ : True ∧ True),
      if_pos (⟨hisl, hlw⟩ :
        (table_store
          { null_block := c.null_block, islands_ok := c.islands_ok,
            current_resources := c.current_resources, table := c.table,
            exhausted := c.exhausted, checktimer := c.checktimer + 1 }
          ⟨lw, rw, none, none, nc⟩ 0).islands_ok = false ∧ lw ≠ -1)]
    rfl

/-! ### Driver -/

/-- do_parse unfolded: the snapshot state it hands to `do_count` and
the cleanup it performs on return. -/
theorem do_parse_eq (fuel : Nat) (env : Env) (sent_length : Int) (c : Ctxt)
    (null_count : Int) (opts : ParseOptions) :
    do_parse fuel env sent_length c null_count opts =
      ((do_count fuel env
          { null_block := 1, islands_ok := opts.islands_ok,
            current_resources := opts.resources, table := c.table,
            exhausted := env.resExhausted c.checktimer, checktimer := 0 }
          (-1) sent_length none none (null_count + 1)).1,
       { (do_count fuel env
            { null_block := 1, islands_ok := opts.islands_ok,
              current_resources := opts.resources, table := c.table,
              exhausted := env.resExhausted c.checktimer, checktimer := 0 }
            (-1) sent_length none none (null_count + 1)).2 with
         current_resources := false, checktimer := 0 }) := rfl

/-- `(a + b - 1) / b` is the ceiling of `a / b`: it is the unique `n`
with `(n-1)·b < a ≤ n·b`, for positive `b` (and any `a`). -/
theorem ceil_div_char (a b nc : Int) (hb : 0 < b) :
    nc = (a + b - 1) / b ↔ (a ≤ nc * b ∧ (nc - 1) * b < a) := by
  constructor
  · rintro rfl
    constructor
    · have h := (Int.ediv_lt_iff_lt_mul (a := a + b - 1)
        (b := (a + b - 1) / b + 1) (c := b) hb).mp (by omega)
      have e2 : ((a + b - 1) / b + 1) * b = ((a + b - 1) / b) * b + b := by ring
      omega
    · have h := (Int.le_ediv_iff_mul_le (a := (a + b - 1) / b)
        (b := a + b - 1) (c := b) hb).mp (le_refl _)
      have e1 : ((a + b - 1) / b - 1) * b = ((a + b - 1) / b) * b - b := by ring
      omega
  · rintro ⟨hle, hlt⟩
    have hA : nc ≤ (a + b - 1) / b := by
      refine (Int.le_ediv_iff_mul_le hb).mpr ?_
      have e1 : (nc - 1) * b = nc * b - b := by ring
      omega
    have hB : (a + b - 1) / b < nc + 1 := by
      refine (Int.ediv_lt_iff_lt_mul hb).mpr ?_
      have e2 : (nc + 1) * b = nc * b + b := by ring
      omega
    omega

/-! ### Lookup side effects -/

theorem table_lookup_hit (env : Env) (c : Ctxt) (lw rw : Int)
    (le re : Option Nat) (cost v : Int)
    (h : table_find c.table ⟨lw, rw, le, re, cost⟩ = some v) :
    table_lookup env c lw rw le re cost = (v, c) := by
  have he := ftp_hit env c ⟨lw, rw, le, re, cost⟩ v h
  rw [table_lookup_eq_some env c lw rw le re cost v (by rw [he]), he]

theorem table_lookup_miss_timer (env : Env) (c : Ctxt) (lw rw : Int)
    (le re : Option Nat) (cost : Int)
    (h : table_find c.table ⟨lw, rw, le, re, cost⟩ = none) :
    (table_lookup env c lw rw le re cost).2.checktimer = c.checktimer + 1 := by
  by_cases hp : poll_fires env c
  · have he := ftp_stuff env c ⟨lw, rw, le, re, cost⟩ h hp
    rw [table_lookup_eq_some env c lw rw le re cost 0 (by rw [he]), he]
    rfl
  · have he := ftp_miss env c ⟨lw, rw, le, re, cost⟩ h hp
    rw [table_lookup_eq_none env c lw rw le re cost (by rw [he]), he]

theorem table_lookup_exhausted (env : Env) (c : Ctxt) (lw rw : Int)
    (le re : Option Nat) (cost : Int)
    (hex : c.exhausted = true)
    (h : table_find c.table ⟨lw, rw, le, re, cost⟩ = none) :
    (table_lookup env c lw rw le re cost).1 = 0 ∧
    table_find (table_lookup env c lw rw le re cost).2.table
      ⟨lw, rw, le, re, cost⟩ = some 0 ∧
    (pseudocount env c lw rw le re cost).1 = 0 := by
  have he := ftp_stuff env c ⟨lw, rw, le, re, cost⟩ h (Or.inl hex)
  have hl := table_lookup_eq_some env c lw rw le re cost 0 (by rw [he])
  refine ⟨by rw [hl], ?_, ?_⟩
  · rw [hl, he]
    exact table_find_cons_self _ _ 0
  · unfold pseudocount
    rw [hl]
    rfl


/-! ### Exhaustion simulation: basic lemmas -/

theorem tblge0_store {c : Ctxt} (k : TKey) (x : Int)
    (h : TblGe0 c) (hx : 0 ≤ x) : TblGe0 (table_store c k x) := by
  intro k' v hv
  simp only [table_store] at hv
  by_cases he : k = k'
  · subst he
    rw [table_find_cons_self] at hv
    rw [Option.some_inj] at hv
    omega
  · rw [table_find_cons_of_ne c.table (k, x) k' he] at hv
    exact h k' v hv

theorem tblge0_set {c : Ctxt} (k : TKey) (x : Int)
    (h : TblGe0 c) (hx : 0 ≤ x) : TblGe0 (ctxt_set c k x) := by
  intro k' v hv
  rcases table_find_set_cases c.table k k' x v hv with h1 | h2
  · omega
  · exact h k' v h2

theorem oracle_off_noRes (env : Env) : OracleOff (noRes env) :=
  fun _ => rfl

theorem poll_fires_oracle_off (env : Env) (c : Ctxt) (ho : OracleOff env) :
    poll_fires env c ↔ c.exhausted = true := by
  unfold poll_fires
  rw [ho (c.checktimer + 1)]
  simp

theorem pc_hit (env : Env) (c : Ctxt) (lw rw : Int) (le re : Option Nat)
    (cost v : Int) (h : table_find c.table ⟨lw, rw, le, re, cost⟩ = some v) :
    pc_fn env c lw rw le re cost = ((if v = 0 then 0 else 1), c) := by
  unfold pc_fn pseudocount
  rw [table_lookup_hit env c lw rw le re cost v h]

theorem pc_stuff (env : Env) (c : Ctxt) (lw rw : Int) (le re : Option Nat)
    (cost : Int) (h : table_find c.table ⟨lw, rw, le, re, cost⟩ = none)
    (hp : poll_fires env c) :
    pc_fn env c lw rw le re cost
      = (0, table_store { c with checktimer := c.checktimer + 1, exhausted := true }
             ⟨lw, rw, le, re, cost⟩ 0) := by
  unfold pc_fn pseudocount
  have he := ftp_stuff env c ⟨lw, rw, le, re, cost⟩ h hp
  rw [table_lookup_eq_some env c lw rw le re cost 0 (by rw [he]), he]
  rfl

theorem pc_quiet (env : Env) (c : Ctxt) (lw rw : Int) (le re : Option Nat)
    (cost : Int) (h : table_find c.table ⟨lw, rw, le, re, cost⟩ = none)
    (hp : ¬ poll_fires env c) :
    pc_fn env c lw rw le re cost = (1, { c with checktimer := c.checktimer + 1 }) := by
  unfold pc_fn pseudocount
  have he := ftp_miss env c ⟨lw, rw, le, re, cost⟩ h hp
  rw [table_lookup_eq_none env c lw rw le re cost (by rw [he]), he]
  rfl

theorem pc_ge0 (env : Env) : Ge0F (pc_fn env) := by
  intro c lw rw le re nc hg
  constructor
  · exact pc_nonneg env c lw rw le re nc
  · cases hf : table_find c.table ⟨lw, rw, le, re, nc⟩ with
    | some v =>
      rw [pc_hit env c lw rw le re nc v hf]
      exact hg
    | none =>
      by_cases hp : poll_fires env c
      · rw [pc_stuff env c lw rw le re nc hf hp]
        exact tblge0_store _ 0 (fun k v hv => hg k v hv) (le_refl 0)
      · rw [pc_quiet env c lw rw le re nc hf hp]
        exact fun k v hv => hg k v hv

theorem pc_keeps_unexh (env : Env) (ho : OracleOff env) :
    KeepsUnexh (pc_fn env) := by
  intro c lw rw le re nc hx
  cases hf : table_find c.table ⟨lw, rw, le, re, nc⟩ with
  | some v =>
    rw [pc_hit env c lw rw le re nc v hf]
    exact hx
  | none =>
    have hp : ¬ poll_fires env c := by
      rw [poll_fires_oracle_off env c ho, hx]
      exact fun h => Bool.noConfusion h
    rw [pc_quiet env c lw rw le re nc hf hp]
    exact hx

theorem simr_right_step {ce ci ci' : Ctxt} (hs : SimR ce ci)
    (hev : Evolves ci ci') (hg : TblGe0 ci') (hx : ci'.exhausted = false) :
    SimR ce ci' := by
  obtain ⟨he1, he2, hg1, hg2, hb⟩ := hs
  refine ⟨he1, hx, hg1, hg, fun k v hv => ?_⟩
  rcases hb k v hv with h0 | ⟨vi, hvi, hle⟩
  · exact Or.inl h0
  · exact Or.inr ⟨vi, hev.1 k vi hvi, hle⟩

theorem simr_left_stuff {ce ci : Ctxt} (hs : SimR ce ci) (k : TKey) (ct' : Nat) :
    SimR (table_store { ce with checktimer := ct', exhausted := true } k 0) ci := by
  obtain ⟨he1, he2, hg1, hg2, hb⟩ := hs
  refine ⟨rfl, he2, ?_, hg2, ?_⟩
  · intro k' v hv
    simp only [table_store] at hv
    by_cases hk : k = k'
    · subst hk
      rw [table_find_cons_self] at hv
      rw [Option.some_inj] at hv
      omega
    · rw [table_find_cons_of_ne ce.table (k, 0) k' hk] at hv
      exact hg1 k' v hv
  · intro k' v hv
    simp only [table_store] at hv
    by_cases hk : k = k'
    · subst hk
      rw [table_find_cons_self] at hv
      rw [Option.some_inj] at hv
      exact Or.inl hv.symm
    · rw [table_find_cons_of_ne ce.table (k, 0) k' hk] at hv
      exact hb k' v hv

theorem simeq_to_simr {ce : Ctxt} (hx : ce.exhausted = false) (hg : TblGe0 ce)
    (k : TKey) (ct1 ct2 : Nat) :
    SimR (table_store { ce with checktimer := ct1, exhausted := true } k 0)
         { ce with checktimer := ct2 } := by
  refine ⟨rfl, hx, ?_, fun k' v hv => hg k' v hv, ?_⟩
  · intro k' v hv
    simp only [table_store] at hv
    by_cases hk : k = k'
    · subst hk
      rw [table_find_cons_self] at hv
      rw [Option.some_inj] at hv
      omega
    · rw [table_find_cons_of_ne ce.table (k, 0) k' hk] at hv
      exact hg k' v hv
  · intro k' v hv
    simp only [table_store] at hv
    by_cases hk : k = k'
    · subst hk
      rw [table_find_cons_self] at hv
      rw [Option.some_inj] at hv
      exact Or.inl hv.symm
    · rw [table_find_cons_of_ne ce.table (k, 0) k' hk] at hv
      exact Or.inr ⟨v, hv, le_refl v⟩

theorem simr_set_both {ce ci : Ctxt} (hs : SimR ce ci) (k : TKey) (ve vi : Int)
    (hve : 0 ≤ ve) (hvi : 0 ≤ vi) (hle : ve ≤ vi)
    (hke : ∃ u, table_find ce.table k = some u)
    (hki : ∃ u, table_find ci.table k = some u) :
    SimR (ctxt_set ce k ve) (ctxt_set ci k vi) := by
  obtain ⟨he1, he2, hg1, hg2, hb⟩ := hs
  refine ⟨he1, he2, tblge0_set k ve hg1 hve, tblge0_set k vi hg2 hvi, ?_⟩
  intro k' v hv
  simp only [ctxt_set] at hv ⊢
  by_cases hk : k' = k
  · subst hk
    obtain ⟨u, hu⟩ := hke
    obtain ⟨u', hu'⟩ := hki
    rw [table_find_set_self ce.table k' u ve hu] at hv
    rw [Option.some_inj] at hv
    refine Or.inr ⟨vi, table_find_set_self ci.table k' u' vi hu', ?_⟩
    omega
  · rw [table_find_set_of_ne ce.table k k' ve hk] at hv
    rcases hb k' v hv with h0 | ⟨wi, hwi, hwle⟩
    · exact Or.inl h0
    · refine Or.inr ⟨wi, ?_, hwle⟩
      rw [table_find_set_of_ne ci.table k k' vi hk]
      exact hwi


/-! ### Single-run preservation suite -/

theorem agg_over_pres {P : Ctxt → Prop} {f : CountFn} (hf : PresV P f) :
    ∀ (ks : List TKey) (c : Ctxt), P c →
      0 ≤ (agg_over f c ks).1 ∧ P (agg_over f c ks).2 := by
  intro ks
  induction ks with
  | nil => intro c hc; exact ⟨le_refl 0, hc⟩
  | cons k ks ih =>
    intro c hc
    obtain ⟨h1, h2⟩ := hf c k.lw k.rw k.le k.re k.cost hc
    obtain ⟨h3, h4⟩ := ih (f c k.lw k.rw k.le k.re k.cost).2 h2
    refine ⟨?_, ?_⟩
    · show 0 ≤ (f c k.lw k.rw k.le k.re k.cost).1 +
        (agg_over f (f c k.lw k.rw k.le k.re k.cost).2 ks).1
      omega
    · show P (agg_over f (f c k.lw k.rw k.le k.re k.cost).2 ks).2
      exact h4

theorem left_count_pres {P : Ctxt → Prop} {f : CountFn} (hf : PresV P f)
    (env : Env) (c : Ctxt) (lw w : Int) (le dleft : Option Nat) (lcost : Int)
    (hc : P c) :
    0 ≤ (left_count f env c lw w le dleft lcost).1 ∧
    P (left_count f env c lw w le dleft lcost).2 := by
  cases le with
  | none => exact ⟨le_refl 0, hc⟩
  | some l =>
    cases dleft with
    | none => exact ⟨le_refl 0, hc⟩
    | some dl =>
      simp only [left_count]
      by_cases hm : do_match env (env.conn l) (env.conn dl) lw w = true
      · rw [if_pos hm]
        exact agg_over_pres hf _ c hc
      · rw [if_neg hm]
        exact ⟨le_refl 0, hc⟩

theorem right_count_pres {P : Ctxt → Prop} {f : CountFn} (hf : PresV P f)
    (env : Env) (c : Ctxt) (w rw : Int) (dright re : Option Nat) (rcost : Int)
    (hc : P c) :
    0 ≤ (right_count f env c w rw dright re rcost).1 ∧
    P (right_count f env c w rw dright re rcost).2 := by
  cases dright with
  | none => exact ⟨le_refl 0, hc⟩
  | some dr =>
    cases re with
    | none => exact ⟨le_refl 0, hc⟩
    | some r =>
      simp only [right_count]
      by_cases hm : do_match env (env.conn dr) (env.conn r) w rw = true
      · rw [if_pos hm]
        exact agg_over_pres hf _ c hc
      · rw [if_neg hm]
        exact ⟨le_refl 0, hc⟩

theorem extra_left_pres {P : Ctxt → Prop} {f : CountFn} (hf : PresV P f)
    (st : Int × Ctxt) (w rw : Int) (dright re : Option Nat)
    (rcost leftcount : Int) (ht : 0 ≤ st.1) (hc : P st.2) (hlc : 0 ≤ leftcount) :
    0 ≤ (extra_left f st w rw dright re rcost leftcount).1 ∧
    P (extra_left f st w rw dright re rcost leftcount).2 := by
  unfold extra_left
  by_cases hl : 0 < leftcount
  · rw [if_pos hl]
    obtain ⟨h1, h2⟩ := hf st.2 w rw dright re rcost hc
    refine ⟨?_, h2⟩
    show 0 ≤ st.1 + leftcount * (f st.2 w rw dright re rcost).1
    have hm := mul_nonneg hlc h1
    linarith
  · rw [if_neg hl]
    exact ⟨ht, hc⟩

theorem extra_right_pres {P : Ctxt → Prop} {f : CountFn} (hf : PresV P f)
    (st : Int × Ctxt) (lw w : Int) (le dleft : Option Nat)
    (lcost rightcount : Int) (ht : 0 ≤ st.1) (hc : P st.2) (hrc : 0 ≤ rightcount) :
    0 ≤ (extra_right f st lw w le dleft lcost rightcount).1 ∧
    P (extra_right f st lw w le dleft lcost rightcount).2 := by
  unfold extra_right
  by_cases hl : le = none ∧ 0 < rightcount
  · rw [if_pos hl]
    obtain ⟨h1, h2⟩ := hf st.2 lw w le dleft lcost hc
    refine ⟨?_, h2⟩
    show 0 ≤ st.1 + rightcount * (f st.2 lw w le dleft lcost).1
    have hm := mul_nonneg hrc h1
    linarith
  · rw [if_neg hl]
    exact ⟨ht, hc⟩

theorem count_branch_pres {P : Ctxt → Prop} {f : CountFn} (hf : PresV P f)
    (env : Env) (c : Ctxt) (lw rw w : Int) (le re : Option Nat) (d : Disjunct)
    (lcost rcost : Int) (hc : P c) :
    0 ≤ (count_branch f env c lw rw w le re d lcost rcost).1 ∧
    P (count_branch f env c lw rw w le re d lcost rcost).2 := by
  simp only [count_branch]
  set L := left_count f env c lw w le d.left lcost with hL
  set R := right_count f env L.2 w rw d.right re rcost with hR
  obtain ⟨hL1, hL2⟩ := left_count_pres hf env c lw w le d.left lcost hc
  rw [← hL] at hL1 hL2
  obtain ⟨hR1, hR2⟩ := right_count_pres hf env L.2 w rw d.right re rcost hL2
  rw [← hR] at hR1 hR2
  have hprod : 0 ≤ L.1 * R.1 := mul_nonneg hL1 hR1
  obtain ⟨hE1, hE2⟩ :=
    extra_left_pres hf (L.1 * R.1, R.2) w rw d.right re rcost L.1 hprod hR2 hL1
  exact extra_right_pres hf
    (extra_left f (L.1 * R.1, R.2) w rw d.right re rcost L.1)
    lw w le d.left lcost R.1 hE1 hE2 hR1

theorem step_lcost_pres {P : Ctxt → Prop} {f : CountFn} (hf : PresV P f)
    (env : Env) (hp : PresV P (pc_fn env)) (lw rw w : Int) (le re : Option Nat)
    (d : Disjunct) (nc : Int) (acc : Int × Ctxt × Bool) (lcost : Int)
    (ht : 0 ≤ acc.1) (hc : P acc.2.1) :
    0 ≤ (step_lcost f env lw rw w le re d nc acc lcost).1 ∧
    P (step_lcost f env lw rw w le re d nc acc lcost).2.1 := by
  obtain ⟨total, c, stopped⟩ := acc
  cases stopped with
  | true => exact ⟨ht, hc⟩
  | false =>
    simp only [step_lcost]
    obtain ⟨hp1, hp2⟩ :=
      count_branch_pres hp env c lw rw w le re d lcost (nc - lcost) hc
    by_cases hg :
        (count_branch (pc_fn env) env c lw rw w le re d lcost (nc - lcost)).1 ≠ 0
    · rw [if_pos hg]
      obtain ⟨hr1, hr2⟩ := count_branch_pres hf env
        (count_branch (pc_fn env) env c lw rw w le re d lcost (nc - lcost)).2
        lw rw w le re d lcost (nc - lcost) hp2
      by_cases hm : INT_MAX < total +
          (count_branch f env
            (count_branch (pc_fn env) env c lw rw w le re d lcost (nc - lcost)).2
            lw rw w le re d lcost (nc - lcost)).1
      · rw [if_pos hm]
        refine ⟨?_, hr2⟩
        show (0 : Int) ≤ INT_MAX
        norm_num [INT_MAX]
      · rw [if_neg hm]
        refine ⟨?_, hr2⟩
        show 0 ≤ total +
          (count_branch f env
            (count_branch (pc_fn env) env c lw rw w le re d lcost (nc - lcost)).2
            lw rw w le re d lcost (nc - lcost)).1
        have ht' : 0 ≤ total := ht
        omega
    · rw [if_neg hg]
      exact ⟨ht, hp2⟩

theorem foldl_pres {α : Type} {P : Ctxt → Prop}
    (g : (Int × Ctxt × Bool) → α → (Int × Ctxt × Bool))
    (hg : ∀ acc x, 0 ≤ acc.1 → P acc.2.1 → 0 ≤ (g acc x).1 ∧ P (g acc x).2.1) :
    ∀ (l : List α) (acc : Int × Ctxt × Bool), 0 ≤ acc.1 → P acc.2.1 →
      0 ≤ (l.foldl g acc).1 ∧ P (l.foldl g acc).2.1 := by
  intro l
  induction l with
  | nil => intro acc h1 h2; exact ⟨h1, h2⟩
  | cons x l ih =>
    intro acc h1 h2
    rw [List.foldl_cons]
    obtain ⟨h3, h4⟩ := hg acc x h1 h2
    exact ih (g acc x) h3 h4

theorem step_disjunct_pres {P : Ctxt → Prop} {f : CountFn} (hf : PresV P f)
    (env : Env) (hp : PresV P (pc_fn env)) (lw rw w : Int) (le re : Option Nat)
    (nc : Int) (acc : Int × Ctxt × Bool) (d : Disjunct)
    (ht : 0 ≤ acc.1) (hc : P acc.2.1) :
    0 ≤ (step_disjunct f env lw rw w le re nc acc d).1 ∧
    P (step_disjunct f env lw rw w le re nc acc d).2.1 := by
  unfold step_disjunct
  exact foldl_pres _
    (fun acc x h1 h2 => step_lcost_pres hf env hp lw rw w le re d nc acc x h1 h2)
    _ acc ht hc

theorem step_word_pres {P : Ctxt → Prop} {f : CountFn} (hf : PresV P f)
    (env : Env) (hp : PresV P (pc_fn env)) (lw rw : Int) (le re : Option Nat)
    (nc : Int) (acc : Int × Ctxt × Bool) (w : Int)
    (ht : 0 ≤ acc.1) (hc : P acc.2.1) :
    0 ≤ (step_word f env lw rw le re nc acc w).1 ∧
    P (step_word f env lw rw le re nc acc w).2.1 := by
  unfold step_word
  exact foldl_pres _
    (fun acc d h1 h2 => step_disjunct_pres hf env hp lw rw w le re nc acc d h1 h2)
    _ acc ht hc

theorem null_sum_pres {P : Ctxt → Prop} {f : CountFn} (hf : PresV P f)
    (w rw nc : Int) :
    ∀ (ds : List Disjunct) (c : Ctxt), P c →
      0 ≤ (null_sum f c w rw nc ds).1 ∧ P (null_sum f c w rw nc ds).2 := by
  intro ds
  induction ds with
  | nil => intro c hc; exact ⟨le_refl 0, hc⟩
  | cons d ds ih =>
    intro c hc
    simp only [null_sum]
    by_cases hd : d.left = none
    · rw [if_pos hd]
      obtain ⟨h1, h2⟩ := hf c w rw d.right none (nc - 1) hc
      obtain ⟨h3, h4⟩ := ih (f c w rw d.right none (nc - 1)).2 h2
      refine ⟨?_, ?_⟩
      · show 0 ≤ (f c w rw d.right none (nc - 1)).1 +
          (null_sum f (f c w rw d.right none (nc - 1)).2 w rw nc ds).1
        omega
      · show P (null_sum f (f c w rw d.right none (nc - 1)).2 w rw nc ds).2
        exact h4
    · rw [if_neg hd]
      exact ih c hc

theorem null_words_total_pres {P : Ctxt → Prop} {f : CountFn} (hf : PresV P f)
    (c : Ctxt) (w rw nc : Int) (ds : List Disjunct) (hc : P c) :
    0 ≤ (null_words_total f c w rw nc ds).1 ∧
    P (null_words_total f c w rw nc ds).2 := by
  simp only [null_words_total]
  obtain ⟨h1, h2⟩ := null_sum_pres hf w rw nc ds c hc
  obtain ⟨h3, h4⟩ := hf (null_sum f c w rw nc ds).2 w rw none none (nc - 1) h2
  refine ⟨?_, h4⟩
  show 0 ≤ (null_sum f c w rw nc ds).1 +
    (f (null_sum f c w rw nc ds).2 w rw none none (nc - 1)).1
  omega

theorem do_count_body_pres {P : Ctxt → Prop} {f : CountFn} (hf : PresV P f)
    (env : Env) (hp : PresV P (pc_fn env))
    (hP0 : ∀ c, P c → TblGe0 c)
    (hftp : ∀ (c : Ctxt) (k : TKey), P c → P (find_table_pointer env c k).2)
    (hstore : ∀ (c : Ctxt) (k : TKey), P c → P (table_store c k 0))
    (hset : ∀ (c : Ctxt) (k : TKey) (v : Int), 0 ≤ v → P c → P (ctxt_set c k v))
    (c : Ctxt) (lw rw : Int) (le re : Option Nat) (nc : Int) (hc : P c) :
    0 ≤ (do_count_body f env c lw rw le re nc).1 ∧
    P (do_count_body f env c lw rw le re nc).2 := by
  unfold do_count_body
  by_cases h0 : nc < 0
  · rw [if_pos h0]
    exact ⟨le_refl 0, hc⟩
  · rw [if_neg h0]
    simp only
    set k : TKey := ⟨lw, rw, le, re, nc⟩ with hk
    cases hfp : (find_table_pointer env c k).1 with
    | some cnt =>
      refine ⟨?_, hftp c k hc⟩
      rcases ftp_some_inv env c k cnt hfp with ⟨hfind, -⟩ | ⟨-, -, hz, -⟩
      · exact hP0 c hc k cnt hfind
      · rw [hz]
    | none =>
      obtain ⟨habs, hnp, heq⟩ := ftp_none_inv env c k hfp
      have hc' : P (find_table_pointer env c k).2 := hftp c k hc
      have hc1 : P (table_store (find_table_pointer env c k).2 k 0) :=
        hstore _ k hc'
      by_cases hadj : rw = lw + 1
      · rw [if_pos hadj]
        have hv : (0 : Int) ≤ if le = none ∧ re = none ∧ nc = 0 then 1 else 0 := by
          by_cases hq : le = none ∧ re = none ∧ nc = 0
          · rw [if_pos hq]; norm_num
          · rw [if_neg hq]
        exact ⟨hv, hset _ k _ hv hc1⟩
      · rw [if_neg hadj]
        by_cases hbn : le = none ∧ re = none
        · rw [if_pos hbn]
          by_cases hisl :
              (table_store (find_table_pointer env c k).2 k 0).islands_ok = false ∧
              lw ≠ -1
          · rw [if_pos hisl]
            have hv : (0 : Int) ≤
                if nc = (rw - lw - 1 +
                    (table_store (find_table_pointer env c k).2 k 0).null_block - 1) /
                  (table_store (find_table_pointer env c k).2 k 0).null_block
                then 1 else 0 := by
              by_cases hq : nc = (rw - lw - 1 +
                  (table_store (find_table_pointer env c k).2 k 0).null_block - 1) /
                (table_store (find_table_pointer env c k).2 k 0).null_block
              · rw [if_pos hq]; norm_num
              · rw [if_neg hq]
            exact ⟨hv, hset _ k _ hv hc1⟩
          · rw [if_neg hisl]
            by_cases hz : nc = 0
            · rw [if_pos hz]
              exact ⟨le_refl 0, hset _ k 0 (le_refl 0) hc1⟩
            · rw [if_neg hz]
              obtain ⟨h1, h2⟩ := null_words_total_pres hf
                (table_store (find_table_pointer env c k).2 k 0)
                (lw + 1) rw nc (env.local_sent (lw + 1)) hc1
              exact ⟨h1, hset _ k _ h1 h2⟩
        · rw [if_neg hbn]
          refine ⟨?_, ?_⟩
          · exact (foldl_pres (step_word f env lw rw le re nc)
              (fun acc x ha hb => step_word_pres hf env hp lw rw le re nc acc x ha hb)
              _ (0, table_store (find_table_pointer env c k).2 k 0, false)
              (le_refl 0) hc1).1
          · exact hset _ k _
              ((foldl_pres (step_word f env lw rw le re nc)
                (fun acc x ha hb => step_word_pres hf env hp lw rw le re nc acc x ha hb)
                _ (0, table_store (find_table_pointer env c k).2 k 0, false)
                (le_refl 0) hc1).1)
              ((foldl_pres (step_word f env lw rw le re nc)
                (fun acc x ha hb => step_word_pres hf env hp lw rw le re nc acc x ha hb)
                _ (0, table_store (find_table_pointer env c k).2 k 0, false)
                (le_refl 0) hc1).2)

theorem ftp_pres_tblge0 (env : Env) :
    ∀ (c : Ctxt) (k : TKey), TblGe0 c → TblGe0 (find_table_pointer env c k).2 := by
  intro c k hc
  cases hfind : table_find c.table k with
  | some cnt =>
    rw [ftp_hit env c k cnt hfind]
    exact hc
  | none =>
    by_cases hq : poll_fires env c
    · rw [ftp_stuff env c k hfind hq]
      exact tblge0_store k 0 (fun k' v hv => hc k' v hv) (le_refl 0)
    · rw [ftp_miss env c k hfind hq]
      exact fun k' v hv => hc k' v hv

theorem pc_pres_tblge0 (env : Env) : PresV TblGe0 (pc_fn env) :=
  pc_ge0 env

theorem do_count_pres_tblge0 (fuel : Nat) (env : Env) :
    PresV TblGe0 (do_count fuel env) := by
  induction fuel with
  | zero => exact fun c lw rw le re nc hc => ⟨le_refl 0, hc⟩
  | succ fuel ih =>
    intro c lw rw le re nc hc
    simp only [do_count]
    exact do_count_body_pres ih env (pc_pres_tblge0 env) (fun c h => h)
      (ftp_pres_tblge0 env)
      (fun c k h => tblge0_store k 0 h (le_refl 0))
      (fun c k v hv h => tblge0_set k v h hv)
      c lw rw le re nc hc

theorem ftp_pres_unexh0 (env : Env) (ho : OracleOff env) :
    ∀ (c : Ctxt) (k : TKey), Unexh0 c → Unexh0 (find_table_pointer env c k).2 := by
  intro c k hc
  cases hfind : table_find c.table k with
  | some cnt =>
    rw [ftp_hit env c k cnt hfind]
    exact hc
  | none =>
    have hq : ¬ poll_fires env c := by
      rw [poll_fires_oracle_off env c ho, hc.1]
      exact fun h => Bool.noConfusion h
    rw [ftp_miss env c k hfind hq]
    exact ⟨hc.1, fun k' v hv => hc.2 k' v hv⟩

theorem pc_pres_unexh0 (env : Env) (ho : OracleOff env) :
    PresV Unexh0 (pc_fn env) := by
  intro c lw rw le re nc hc
  refine ⟨pc_nonneg env c lw rw le re nc, ?_, ?_⟩
  · exact pc_keeps_unexh env ho c lw rw le re nc hc.1
  · exact ((pc_ge0 env) c lw rw le re nc hc.2).2

theorem do_count_pres_unexh0 (fuel : Nat) (env : Env) (ho : OracleOff env) :
    PresV Unexh0 (do_count fuel env) := by
  induction fuel with
  | zero => exact fun c lw rw le re nc hc => ⟨le_refl 0, hc⟩
  | succ fuel ih =>
    intro c lw rw le re nc hc
    simp only [do_count]
    exact do_count_body_pres ih env (pc_pres_unexh0 env ho) (fun c h => h.2)
      (ftp_pres_unexh0 env ho)
      (fun c k h => ⟨h.1, tblge0_store k 0 h.2 (le_refl 0)⟩)
      (fun c k v hv h => ⟨h.1, tblge0_set k v h.2 hv⟩)
      c lw rw le re nc hc


/-! ### Exhaustion simulation: shallow runs and the pseudocount pair -/

theorem ite_zero_one_nonneg {p : Prop} [Decidable p] :
    (0 : Int) ≤ if p then 0 else 1 := by
  by_cases h : p
  · rw [if_pos h]
  · rw [if_neg h]; norm_num

theorem ite_zero_one_le_one {p : Prop} [Decidable p] :
    (if p then (0 : Int) else 1) ≤ 1 := by
  by_cases h : p
  · rw [if_pos h]; norm_num
  · rw [if_neg h]

theorem no_simr_of_unexh {ce ci : Ctxt} (hx : ce.exhausted = false)
    (h : SimR ce ci) : False := by
  rw [h.1] at hx
  exact Bool.noConfusion hx

theorem simeq_simr_absurd {a b : Ctxt} (h1 : SimEq a b) (h2 : SimR a b) : False :=
  no_simr_of_unexh h1.2.1 h2

theorem evolves_timer (c : Ctxt) (n : Nat) : Evolves c { c with checktimer := n } :=
  ⟨fun _ _ h => h, rfl, rfl, rfl, fun h => h⟩

theorem sim_of_relout {ce ci ce' ci' : Ctxt} {ve vi : Int}
    (hs : Sim ce ci) (hr : RelOut ce ci ce' ci' ve vi) : Sim ce' ci' := by
  rcases hs with hEq | hR
  · rcases hr.2.2.1 hEq with ⟨hE, -⟩ | hR'
    · exact Or.inl hE
    · exact Or.inr hR'
  · exact Or.inr (hr.2.2.2 hR)

theorem relout_refl {ce ci : Ctxt} : RelOut ce ci ce ci 0 0 :=
  ⟨le_refl 0, le_refl 0, fun hEq => Or.inl ⟨hEq, rfl⟩, fun hR => hR⟩

theorem relout_comp {ce ci c1e c1i c2e c2i : Ctxt} {v1e v1i v2e v2i : Int}
    (h1 : RelOut ce ci c1e c1i v1e v1i) (h2 : RelOut c1e c1i c2e c2i v2e v2i) :
    RelOut ce ci c2e c2i (v1e + v2e) (v1i + v2i) := by
  obtain ⟨h1a, h1b, h1c, h1d⟩ := h1
  obtain ⟨h2a, h2b, h2c, h2d⟩ := h2
  refine ⟨by omega, by omega, ?_, fun hR => h2d (h1d hR)⟩
  intro hEq
  rcases h1c hEq with ⟨hE1, hv1⟩ | hR1
  · rcases h2c hE1 with ⟨hE2, hv2⟩ | hR2
    · exact Or.inl ⟨hE2, by omega⟩
    · exact Or.inr hR2
  · exact Or.inr (h2d hR1)

theorem shallow_pc (env : Env) : ShallowF (pc_fn env) := by
  intro ce ci lw rw le re nc hs
  cases hfind : table_find ce.table ⟨lw, rw, le, re, nc⟩ with
  | some v =>
    rw [pc_hit env ce lw rw le re nc v hfind]
    exact ⟨ite_zero_one_nonneg, hs⟩
  | none =>
    rw [pc_stuff env ce lw rw le re nc hfind (Or.inl hs.1)]
    exact ⟨le_refl 0, simr_left_stuff hs _ _⟩

theorem shallow_do_count (fuel : Nat) (env : Env) :
    ShallowF (do_count fuel env) := by
  intro ce ci lw rw le re nc hs
  cases fuel with
  | zero => exact ⟨le_refl 0, hs⟩
  | succ fuel =>
    simp only [do_count, do_count_body]
    by_cases h0 : nc < 0
    · rw [if_pos h0]
      exact ⟨le_refl 0, hs⟩
    · rw [if_neg h0]
      cases hfind : table_find ce.table ⟨lw, rw, le, re, nc⟩ with
      | some v =>
        rw [ftp_hit env ce ⟨lw, rw, le, re, nc⟩ v hfind]
        exact ⟨hs.2.2.1 _ v hfind, hs⟩
      | none =>
        rw [ftp_stuff env ce ⟨lw, rw, le, re, nc⟩ hfind (Or.inl hs.1)]
        exact ⟨le_refl 0, simr_left_stuff hs _ _⟩

theorem simf_pc (env : Env) : SimF (pc_fn env) (pc_fn (noRes env)) := by
  intro ce ci lw rw le re nc hsim
  rcases hsim with ⟨hceq, hx, hg⟩ | hR
  · subst hceq
    cases hfind : table_find ce.table ⟨lw, rw, le, re, nc⟩ with
    | some v =>
      rw [pc_hit env ce lw rw le re nc v hfind,
          pc_hit (noRes env) ce lw rw le re nc v hfind]
      exact ⟨ite_zero_one_nonneg, le_refl _,
        fun _ => Or.inl ⟨⟨rfl, hx, hg⟩, rfl⟩,
        fun hR' => (no_simr_of_unexh hx hR').elim⟩
    | none =>
      have hqi : ¬ poll_fires (noRes env) ce := by
        rw [poll_fires_oracle_off (noRes env) ce (oracle_off_noRes env), hx]
        exact fun h => Bool.noConfusion h
      by_cases hqe : poll_fires env ce
      · rw [pc_stuff env ce lw rw le re nc hfind hqe,
            pc_quiet (noRes env) ce lw rw le re nc hfind hqi]
        refine ⟨le_refl 0, by norm_num, fun _ => Or.inr ?_,
          fun hR' => (no_simr_of_unexh hx hR').elim⟩
        exact simeq_to_simr hx hg ⟨lw, rw, le, re, nc⟩
          (ce.checktimer + 1) (ce.checktimer + 1)
      · rw [pc_quiet env ce lw rw le re nc hfind hqe,
            pc_quiet (noRes env) ce lw rw le re nc hfind hqi]
        exact ⟨by norm_num, le_refl _,
          fun _ => Or.inl ⟨⟨rfl, hx, hg⟩, rfl⟩,
          fun hR' => (no_simr_of_unexh hx hR').elim⟩
  · obtain ⟨he1, he2, hg1, hg2, hb⟩ := hR
    cases hfe : table_find ce.table ⟨lw, rw, le, re, nc⟩ with
    | some v =>
      rw [pc_hit env ce lw rw le re nc v hfe]
      cases hfi : table_find ci.table ⟨lw, rw, le, re, nc⟩ with
      | some u =>
        rw [pc_hit (noRes env) ci lw rw le re nc u hfi]
        refine ⟨ite_zero_one_nonneg, ?_,
          fun hEq => (simeq_simr_absurd hEq ⟨he1, he2, hg1, hg2, hb⟩).elim,
          fun _ => ⟨he1, he2, hg1, hg2, hb⟩⟩
        by_cases hv : v = 0
        · rw [if_pos hv]
          exact ite_zero_one_nonneg
        · rcases hb _ v hfe with h0 | ⟨vi0, hvi0, hle⟩
          · exact absurd h0 hv
          · rw [hfi] at hvi0
            rw [Option.some_inj] at hvi0
            have hu : ¬ u = 0 := by
              have hv0 : 0 ≤ v := hg1 _ v hfe
              omega
            rw [if_neg hv, if_neg hu]
      | none =>
        have hqi : ¬ poll_fires (noRes env) ci := by
          rw [poll_fires_oracle_off (noRes env) ci (oracle_off_noRes env), he2]
          exact fun h => Bool.noConfusion h
        rw [pc_quiet (noRes env) ci lw rw le re nc hfi hqi]
        refine ⟨ite_zero_one_nonneg, ite_zero_one_le_one,
          fun hEq => (simeq_simr_absurd hEq ⟨he1, he2, hg1, hg2, hb⟩).elim,
          fun _ => ?_⟩
        exact simr_right_step ⟨he1, he2, hg1, hg2, hb⟩
          (evolves_timer ci (ci.checktimer + 1))
          (fun k' v' hv' => hg2 k' v' hv') he2
    | none =>
      rw [pc_stuff env ce lw rw le re nc hfe (Or.inl he1)]
      cases hfi : table_find ci.table ⟨lw, rw, le, re, nc⟩ with
      | some u =>
        rw [pc_hit (noRes env) ci lw rw le re nc u hfi]
        exact ⟨le_refl 0, ite_zero_one_nonneg,
          fun hEq => (simeq_simr_absurd hEq ⟨he1, he2, hg1, hg2, hb⟩).elim,
          fun _ => simr_left_stuff ⟨he1, he2, hg1, hg2, hb⟩ _ _⟩
      | none =>
        have hqi : ¬ poll_fires (noRes env) ci := by
          rw [poll_fires_oracle_off (noRes env) ci (oracle_off_noRes env), he2]
          exact fun h => Bool.noConfusion h
        rw [pc_quiet (noRes env) ci lw rw le re nc hfi hqi]
        refine ⟨le_refl 0, by norm_num,
          fun hEq => (simeq_simr_absurd hEq ⟨he1, he2, hg1, hg2, hb⟩).elim,
          fun _ => ?_⟩
        exact simr_right_step (simr_left_stuff ⟨he1, he2, hg1, hg2, hb⟩ _ _)
          (evolves_timer ci (ci.checktimer + 1))
          (fun k' v' hv' => hg2 k' v' hv') he2


/-! ### Exhaustion simulation: relational helper lemmas -/

theorem noRes_conn (env : Env) : (noRes env).conn = env.conn := rfl

theorem noRes_next (env : Env) : (noRes env).next = env.next := rfl

theorem noRes_local_sent (env : Env) : (noRes env).local_sent = env.local_sent := rfl

theorem noRes_fml (env : Env) :
    (noRes env).form_match_list = env.form_match_list := rfl

theorem do_match_noRes (env : Env) (a b : Connector) (aw bw : Int) :
    do_match (noRes env) a b aw bw = do_match env a b aw bw := rfl

theorem left_keys_noRes (env : Env) (lw w : Int) (l dl : Nat) (lcost : Int) :
    left_keys (noRes env) lw w l dl lcost = left_keys env lw w l dl lcost := rfl

theorem right_keys_noRes (env : Env) (w rw : Int) (dr r : Nat) (rcost : Int) :
    right_keys (noRes env) w rw dr r rcost = right_keys env w rw dr r rcost := rfl

theorem rel_agg_over {fe fi : CountFn} (hS : SimF fe fi) :
    ∀ (ks : List TKey) (ce ci : Ctxt), Sim ce ci →
      RelOut ce ci (agg_over fe ce ks).2 (agg_over fi ci ks).2
        (agg_over fe ce ks).1 (agg_over fi ci ks).1 := by
  intro ks
  induction ks with
  | nil => intro ce ci hs; exact relout_refl
  | cons k ks ih =>
    intro ce ci hs
    have h1 := hS ce ci k.lw k.rw k.le k.re k.cost hs
    have h2 := ih (fe ce k.lw k.rw k.le k.re k.cost).2
      (fi ci k.lw k.rw k.le k.re k.cost).2 (sim_of_relout hs h1)
    exact relout_comp h1 h2

theorem rel_left_count {fe fi : CountFn} (hS : SimF fe fi) (env : Env)
    (ce ci : Ctxt) (lw w : Int) (le dleft : Option Nat) (lcost : Int)
    (hs : Sim ce ci) :
    RelOut ce ci (left_count fe env ce lw w le dleft lcost).2
      (left_count fi (noRes env) ci lw w le dleft lcost).2
      (left_count fe env ce lw w le dleft lcost).1
      (left_count fi (noRes env) ci lw w le dleft lcost).1 := by
  cases le with
  | none => exact relout_refl
  | some l =>
    cases dleft with
    | none => exact relout_refl
    | some dl =>
      simp only [left_count, left_keys_noRes, do_match_noRes, noRes_conn]
      by_cases hm : do_match env (env.conn l) (env.conn dl) lw w = true
      · rw [if_pos hm, if_pos hm]
        exact rel_agg_over hS _ ce ci hs
      · rw [if_neg hm, if_neg hm]
        exact relout_refl

theorem rel_right_count {fe fi : CountFn} (hS : SimF fe fi) (env : Env)
    (ce ci : Ctxt) (w rw : Int) (dright re : Option Nat) (rcost : Int)
    (hs : Sim ce ci) :
    RelOut ce ci (right_count fe env ce w rw dright re rcost).2
      (right_count fi (noRes env) ci w rw dright re rcost).2
      (right_count fe env ce w rw dright re rcost).1
      (right_count fi (noRes env) ci w rw dright re rcost).1 := by
  cases dright with
  | none => exact relout_refl
  | some dr =>
    cases re with
    | none => exact relout_refl
    | some r =>
      simp only [right_count, right_keys_noRes, do_match_noRes, noRes_conn]
      by_cases hm : do_match env (env.conn dr) (env.conn r) w rw = true
      · rw [if_pos hm, if_pos hm]
        exact rel_agg_over hS _ ce ci hs
      · rw [if_neg hm, if_neg hm]
        exact relout_refl

theorem rel_extra_left {fe fi : CountFn} (hS : SimF fe fi)
    (hiE : EvolvesF fi) (hiP : PresV Unexh0 fi)
    {ce0 ci0 : Ctxt} (hs0 : Sim ce0 ci0)
    (ste sti : Int × Ctxt) (w rw : Int) (dright re : Option Nat)
    (rcost : Int) (lce lci : Int)
    (hpre : RelOut ce0 ci0 ste.2 sti.2 ste.1 sti.1)
    (hlce : 0 ≤ lce) (hlc : lce ≤ lci)
    (hlceq : SimEq ste.2 sti.2 → lce = lci) :
    RelOut ce0 ci0 (extra_left fe ste w rw dright re rcost lce).2
      (extra_left fi sti w rw dright re rcost lci).2
      (extra_left fe ste w rw dright re rcost lce).1
      (extra_left fi sti w rw dright re rcost lci).1 := by
  have hsim : Sim ste.2 sti.2 := sim_of_relout hs0 hpre
  unfold extra_left
  by_cases hle : 0 < lce
  · have hli : 0 < lci := lt_of_lt_of_le hle hlc
    rw [if_pos hle, if_pos hli]
    obtain ⟨hqa, hqb, hqc, hqd⟩ := hS ste.2 sti.2 w rw dright re rcost hsim
    obtain ⟨ha, hb, hc, hd⟩ := hpre
    refine ⟨?_, ?_, ?_, ?_⟩
    · show 0 ≤ ste.1 + lce * (fe ste.2 w rw dright re rcost).1
      have hm := mul_nonneg hlce hqa
      linarith
    · show ste.1 + lce * (fe ste.2 w rw dright re rcost).1 ≤
        sti.1 + lci * (fi sti.2 w rw dright re rcost).1
      have hmul : lce * (fe ste.2 w rw dright re rcost).1 ≤
          lci * (fi sti.2 w rw dright re rcost).1 :=
        mul_le_mul hlc hqb hqa (by linarith)
      linarith
    · intro hEq
      rcases hc hEq with ⟨hE1, hv1⟩ | hR1
      · have hlceq' := hlceq hE1
        rcases hqc hE1 with ⟨hE2, hv2⟩ | hR2
        · refine Or.inl ⟨hE2, ?_⟩
          show ste.1 + lce * (fe ste.2 w rw dright re rcost).1 =
            sti.1 + lci * (fi sti.2 w rw dright re rcost).1
          rw [hv1, hv2, hlceq']
        · exact Or.inr hR2
      · exact Or.inr (hqd hR1)
    · intro hR
      exact hqd (hd hR)
  · by_cases hli : 0 < lci
    · rw [if_neg hle, if_pos hli]
      obtain ⟨ha, hb, hc, hd⟩ := hpre
      have hnotEq : ¬ SimEq ste.2 sti.2 := by
        intro hE
        have := hlceq hE
        omega
      have hRst : SimR ste.2 sti.2 := by
        rcases hsim with hE | hR
        · exact absurd hE hnotEq
        · exact hR
      have hun : Unexh0 sti.2 := ⟨hRst.2.1, hRst.2.2.2.1⟩
      have hq := hiP sti.2 w rw dright re rcost hun
      have hRout : SimR ste.2 (fi sti.2 w rw dright re rcost).2 :=
        simr_right_step hRst (hiE sti.2 w rw dright re rcost) hq.2.2 hq.2.1
      refine ⟨ha, ?_, fun _ => Or.inr hRout, fun _ => hRout⟩
      show ste.1 ≤ sti.1 + lci * (fi sti.2 w rw dright re rcost).1
      have hm := mul_nonneg (by linarith : (0 : Int) ≤ lci) hq.1
      linarith
    · rw [if_neg hle, if_neg hli]
      exact hpre

theorem rel_extra_right {fe fi : CountFn} (hS : SimF fe fi)
    (hiE : EvolvesF fi) (hiP : PresV Unexh0 fi)
    {ce0 ci0 : Ctxt} (hs0 : Sim ce0 ci0)
    (ste sti : Int × Ctxt) (lw w : Int) (le dleft : Option Nat)
    (lcost : Int) (rce rci : Int)
    (hpre : RelOut ce0 ci0 ste.2 sti.2 ste.1 sti.1)
    (hrce : 0 ≤ rce) (hrc : rce ≤ rci)
    (hrceq : SimEq ste.2 sti.2 → rce = rci) :
    RelOut ce0 ci0 (extra_right fe ste lw w le dleft lcost rce).2
      (extra_right fi sti lw w le dleft lcost rci).2
      (extra_right fe ste lw w le dleft lcost rce).1
      (extra_right fi sti lw w le dleft lcost rci).1 := by
  have hsim : Sim ste.2 sti.2 := sim_of_relout hs0 hpre
  unfold extra_right
  by_cases hle : le = none ∧ 0 < rce
  · have hli : le = none ∧ 0 < rci := ⟨hle.1, lt_of_lt_of_le hle.2 hrc⟩
    rw [if_pos hle, if_pos hli]
    obtain ⟨hqa, hqb, hqc, hqd⟩ := hS ste.2 sti.2 lw w le dleft lcost hsim
    obtain ⟨ha, hb, hc, hd⟩ := hpre
    refine ⟨?_, ?_, ?_, ?_⟩
    · show 0 ≤ ste.1 + rce * (fe ste.2 lw w le dleft lcost).1
      have hm := mul_nonneg hrce hqa
      linarith
    · show ste.1 + rce * (fe ste.2 lw w le dleft lcost).1 ≤
        sti.1 + rci * (fi sti.2 lw w le dleft lcost).1
      have hmul : rce * (fe ste.2 lw w le dleft lcost).1 ≤
          rci * (fi sti.2 lw w le dleft lcost).1 :=
        mul_le_mul hrc hqb hqa (by linarith [hle.2])
      linarith
    · intro hEq
      rcases hc hEq with ⟨hE1, hv1⟩ | hR1
      · have hrceq' := hrceq hE1
        rcases hqc hE1 with ⟨hE2, hv2⟩ | hR2
        · refine Or.inl ⟨hE2, ?_⟩
          show ste.1 + rce * (fe ste.2 lw w le dleft lcost).1 =
            sti.1 + rci * (fi sti.2 lw w le dleft lcost).1
          rw [hv1, hv2, hrceq']
        · exact Or.inr hR2
      · exact Or.inr (hqd hR1)
    · intro hR
      exact hqd (hd hR)
  · by_cases hli : le = none ∧ 0 < rci
    · rw [if_neg hle, if_pos hli]
      obtain ⟨ha, hb, hc, hd⟩ := hpre
      have hnotEq : ¬ SimEq ste.2 sti.2 := by
        intro hE
        have := hrceq hE
        exact hle ⟨hli.1, by omega⟩
      have hRst : SimR ste.2 sti.2 := by
        rcases hsim with hE | hR
        · exact absurd hE hnotEq
        · exact hR
      have hun : Unexh0 sti.2 := ⟨hRst.2.1, hRst.2.2.2.1⟩
      have hq := hiP sti.2 lw w le dleft lcost hun
      have hRout : SimR ste.2 (fi sti.2 lw w le dleft lcost).2 :=
        simr_right_step hRst (hiE sti.2 lw w le dleft lcost) hq.2.2 hq.2.1
      refine ⟨ha, ?_, fun _ => Or.inr hRout, fun _ => hRout⟩
      show ste.1 ≤ sti.1 + rci * (fi sti.2 lw w le dleft lcost).1
      have hm := mul_nonneg (by linarith [hli.2] : (0 : Int) ≤ rci) hq.1
      linarith
    · rw [if_neg hle, if_neg hli]
      exact hpre

theorem simeq_exh_absurd {a b : Ctxt} (hE : SimEq a b)
    (hx : a.exhausted = true) : False := by
  rw [hE.2.1] at hx
  exact Bool.noConfusion hx

theorem rel_count_branch {fe fi : CountFn} (hS : SimF fe fi)
    (heE : EvolvesF fe) (hiE : EvolvesF fi) (hiP : PresV Unexh0 fi) (env : Env)
    (ce ci : Ctxt) (lw rw w : Int) (le re : Option Nat) (d : Disjunct)
    (lcost rcost : Int) (hs : Sim ce ci) :
    RelOut ce ci (count_branch fe env ce lw rw w le re d lcost rcost).2
      (count_branch fi (noRes env) ci lw rw w le re d lcost rcost).2
      (count_branch fe env ce lw rw w le re d lcost rcost).1
      (count_branch fi (noRes env) ci lw rw w le re d lcost rcost).1 := by
  simp only [count_branch]
  set Le := left_count fe env ce lw w le d.left lcost with hLedef
  set Li := left_count fi (noRes env) ci lw w le d.left lcost with hLidef
  have hL := rel_left_count hS env ce ci lw w le d.left lcost hs
  rw [← hLedef, ← hLidef] at hL
  have hsimL : Sim Le.2 Li.2 := sim_of_relout hs hL
  set Re := right_count fe env Le.2 w rw d.right re rcost with hRedef
  set Ri := right_count fi (noRes env) Li.2 w rw d.right re rcost with hRidef
  have hRrel := rel_right_count hS env Le.2 Li.2 w rw d.right re rcost hsimL
  rw [← hRedef, ← hRidef] at hRrel
  have hprod : RelOut ce ci Re.2 Ri.2 (Le.1 * Re.1) (Li.1 * Ri.1) := by
    obtain ⟨ha1, hb1, hc1, hd1⟩ := hL
    obtain ⟨ha2, hb2, hc2, hd2⟩ := hRrel
    refine ⟨mul_nonneg ha1 ha2,
      mul_le_mul hb1 hb2 ha2 (le_trans ha1 hb1), ?_, fun hR0 => hd2 (hd1 hR0)⟩
    intro hEq
    rcases hc1 hEq with ⟨hE1, hv1⟩ | hR1
    · rcases hc2 hE1 with ⟨hE2, hv2⟩ | hR2
      · exact Or.inl ⟨hE2, by rw [hv1, hv2]⟩
      · exact Or.inr hR2
    · exact Or.inr (hd2 hR1)
  have hlceq : SimEq Re.2 Ri.2 → Le.1 = Li.1 := by
    intro hE2
    rcases hs with hE0 | hR0
    · rcases hL.2.2.1 hE0 with ⟨hE1, hv1⟩ | hR1
      · exact hv1
      · exact (simeq_simr_absurd hE2 (hRrel.2.2.2 hR1)).elim
    · exact (simeq_simr_absurd hE2 (hRrel.2.2.2 (hL.2.2.2 hR0))).elim
  have hEL := rel_extra_left hS hiE hiP hs (Le.1 * Re.1, Re.2) (Li.1 * Ri.1, Ri.2)
    w rw d.right re rcost Le.1 Li.1 hprod hL.1 hL.2.1 hlceq
  have hrceq : SimEq (extra_left fe (Le.1 * Re.1, Re.2) w rw d.right re rcost Le.1).2
      (extra_left fi (Li.1 * Ri.1, Ri.2) w rw d.right re rcost Li.1).2 →
      Re.1 = Ri.1 := by
    intro hE
    rcases hs with hE0 | hR0
    · rcases hL.2.2.1 hE0 with ⟨hE1, hv1⟩ | hR1
      · rcases hRrel.2.2.1 hE1 with ⟨hE2, hv2⟩ | hR2
        · exact hv2
        · exact (simeq_exh_absurd hE
            ((extra_left_evolves heE (Le.1 * Re.1, Re.2)
              w rw d.right re rcost Le.1).2.2.2.2 hR2.1)).elim
      · exact (simeq_exh_absurd hE
          ((extra_left_evolves heE (Le.1 * Re.1, Re.2)
            w rw d.right re rcost Le.1).2.2.2.2
            ((hRrel.2.2.2 hR1).1))).elim
    · exact (simeq_exh_absurd hE
        ((extra_left_evolves heE (Le.1 * Re.1, Re.2)
          w rw d.right re rcost Le.1).2.2.2.2
          ((hRrel.2.2.2 (hL.2.2.2 hR0)).1))).elim
  exact rel_extra_right hS hiE hiP hs
    (extra_left fe (Le.1 * Re.1, Re.2) w rw d.right re rcost Le.1)
    (extra_left fi (Li.1 * Ri.1, Ri.2) w rw d.right re rcost Li.1)
    lw w le d.left lcost Re.1 Ri.1 hEL hRrel.1 hRrel.2.1 hrceq

theorem rel_null_sum {fe fi : CountFn} (hS : SimF fe fi) (w rw nc : Int) :
    ∀ (ds : List Disjunct) (ce ci : Ctxt), Sim ce ci →
      RelOut ce ci (null_sum fe ce w rw nc ds).2 (null_sum fi ci w rw nc ds).2
        (null_sum fe ce w rw nc ds).1 (null_sum fi ci w rw nc ds).1 := by
  intro ds
  induction ds with
  | nil => intro ce ci hs; exact relout_refl
  | cons d ds ih =>
    intro ce ci hs
    simp only [null_sum]
    by_cases hd : d.left = none
    · rw [if_pos hd, if_pos hd]
      have h1 := hS ce ci w rw d.right none (nc - 1) hs
      have h2 := ih (fe ce w rw d.right none (nc - 1)).2
        (fi ci w rw d.right none (nc - 1)).2 (sim_of_relout hs h1)
      exact relout_comp h1 h2
    · rw [if_neg hd, if_neg hd]
      exact ih ce ci hs

theorem rel_null_words_total {fe fi : CountFn} (hS : SimF fe fi)
    (ce ci : Ctxt) (w rw nc : Int) (ds : List Disjunct) (hs : Sim ce ci) :
    RelOut ce ci (null_words_total fe ce w rw nc ds).2
      (null_words_total fi ci w rw nc ds).2
      (null_words_total fe ce w rw nc ds).1
      (null_words_total fi ci w rw nc ds).1 := by
  simp only [null_words_total]
  have h1 := rel_null_sum hS w rw nc ds ce ci hs
  have h2 := hS (null_sum fe ce w rw nc ds).2 (null_sum fi ci w rw nc ds).2
    w rw none none (nc - 1) (sim_of_relout hs h1)
  exact relout_comp h1 h2


/-! ### Exhaustion simulation: the saturating loop -/

theorem accrel_of_clamp {ce' ci' : Ctxt} (hR : SimR ce' ci')
    (ta tb re ri : Int) (hta : 0 ≤ ta) (htab : ta ≤ tb) (_htb : tb ≤ INT_MAX)
    (hre : 0 ≤ re) (hrr : re ≤ ri) :
    AccRel
      (if INT_MAX < ta + re then (INT_MAX, ce', true) else (ta + re, ce', false))
      (if INT_MAX < tb + ri then (INT_MAX, ci', true) else (tb + ri, ci', false)) := by
  by_cases hm1 : INT_MAX < ta + re
  · have hm2 : INT_MAX < tb + ri := by omega
    rw [if_pos hm1, if_pos hm2]
    exact Or.inr ⟨hR, (by norm_num [INT_MAX] : (0 : Int) ≤ INT_MAX),
      le_refl INT_MAX, le_refl INT_MAX, fun _ => rfl, fun _ => rfl⟩
  · rw [if_neg hm1]
    by_cases hm2 : INT_MAX < tb + ri
    · rw [if_pos hm2]
      exact Or.inr ⟨hR, (by omega : (0 : Int) ≤ ta + re),
        (by omega : ta + re ≤ INT_MAX), le_refl INT_MAX,
        fun h => Bool.noConfusion h, fun _ => rfl⟩
    · rw [if_neg hm2]
      exact Or.inr ⟨hR, (by omega : (0 : Int) ≤ ta + re),
        (by omega : ta + re ≤ tb + ri), (by omega : tb + ri ≤ INT_MAX),
        fun h => Bool.noConfusion h, fun h => Bool.noConfusion h⟩

theorem accrel_skip_left {ce' ci' : Ctxt} (hR : SimR ce' ci')
    (ta tb ri : Int) (hta : 0 ≤ ta) (htab : ta ≤ tb) (htaM : ta ≤ INT_MAX)
    (hri : 0 ≤ ri) :
    AccRel (ta, ce', false)
      (if INT_MAX < tb + ri then (INT_MAX, ci', true) else (tb + ri, ci', false)) := by
  by_cases hm : INT_MAX < tb + ri
  · rw [if_pos hm]
    exact Or.inr ⟨hR, hta, htaM, le_refl INT_MAX,
      fun h => Bool.noConfusion h, fun _ => rfl⟩
  · rw [if_neg hm]
    exact Or.inr ⟨hR, hta, (by omega : ta ≤ tb + ri),
      (by omega : tb + ri ≤ INT_MAX),
      fun h => Bool.noConfusion h, fun h => Bool.noConfusion h⟩

theorem rel_step_lcost {fe fi : CountFn} (hS : SimF fe fi)
    (heE : EvolvesF fe) (hiE : EvolvesF fi) (hiP : PresV Unexh0 fi)
    (hSh : ShallowF fe) (env : Env)
    (lw rw w : Int) (le re : Option Nat) (d : Disjunct) (nc : Int)
    (a b : Int × Ctxt × Bool) (lcost : Int) (hab : AccRel a b) :
    AccRel (step_lcost fe env lw rw w le re d nc a lcost)
      (step_lcost fi (noRes env) lw rw w le re d nc b lcost) := by
  obtain ⟨ta, ca, sa⟩ := a
  obtain ⟨tb, cb, sb⟩ := b
  rcases hab with ⟨hv, hfl, hta0, htaM, hE⟩ | ⟨hR, hta0, htab, htbM, hfa, hfb⟩
  · -- lockstep mode
    have hv' : ta = tb := hv
    have hfl' : sa = sb := hfl
    obtain ⟨hcc, hx, hg⟩ := hE
    have hcc' : ca = cb := hcc
    have hta0' : 0 ≤ ta := hta0
    have htaM' : ta ≤ INT_MAX := htaM
    subst hv'
    subst hfl'
    subst hcc'
    cases sa with
    | true =>
      exact Or.inl ⟨rfl, rfl, hta0', htaM', ⟨rfl, hx, hg⟩⟩
    | false =>
      simp only [step_lcost]
      set Pe := count_branch (pc_fn env) env ca lw rw w le re d lcost (nc - lcost)
        with hPedef
      set Pi := count_branch (pc_fn (noRes env)) (noRes env) ca
        lw rw w le re d lcost (nc - lcost) with hPidef
      have hP := rel_count_branch (simf_pc env) (pc_fn_evolves env)
        (pc_fn_evolves (noRes env))
        (pc_pres_unexh0 (noRes env) (oracle_off_noRes env)) env ca ca
        lw rw w le re d lcost (nc - lcost) (Or.inl ⟨rfl, hx, hg⟩)
      rw [← hPedef, ← hPidef] at hP
      have hpe0 : 0 ≤ Pe.1 := hP.1
      have hpei : Pe.1 ≤ Pi.1 := hP.2.1
      by_cases hge : Pe.1 ≠ 0
      · by_cases hgi : Pi.1 ≠ 0
        · rw [if_pos hge, if_pos hgi]
          have hsimP : Sim Pe.2 Pi.2 := sim_of_relout (Or.inl ⟨rfl, hx, hg⟩) hP
          set Re := count_branch fe env Pe.2 lw rw w le re d lcost (nc - lcost)
            with hRedef
          set Ri := count_branch fi (noRes env) Pi.2 lw rw w le re d lcost
            (nc - lcost) with hRidef
          have hRr := rel_count_branch hS heE hiE hiP env Pe.2 Pi.2
            lw rw w le re d lcost (nc - lcost) hsimP
          rw [← hRedef, ← hRidef] at hRr
          have hre0 : 0 ≤ Re.1 := hRr.1
          have hrei : Re.1 ≤ Ri.1 := hRr.2.1
          have hall : (SimEq Re.2 Ri.2 ∧ Re.1 = Ri.1) ∨ SimR Re.2 Ri.2 := by
            rcases hP.2.2.1 ⟨rfl, hx, hg⟩ with ⟨hEp, hvp⟩ | hRp
            · rcases hRr.2.2.1 hEp with ⟨hEr, hvr⟩ | hRrx
              · exact Or.inl ⟨hEr, hvr⟩
              · exact Or.inr hRrx
            · exact Or.inr (hRr.2.2.2 hRp)
          rcases hall with ⟨hEr, hvr⟩ | hRx
          · by_cases hm : INT_MAX < ta + Re.1
            · rw [if_pos hm, if_pos (show INT_MAX < ta + Ri.1 by
                rw [← hvr]; exact hm)]
              exact Or.inl ⟨rfl, rfl, (by norm_num [INT_MAX] : (0 : Int) ≤ INT_MAX),
                le_refl INT_MAX, hEr⟩
            · rw [if_neg hm, if_neg (show ¬ INT_MAX < ta + Ri.1 by
                rw [← hvr]; exact hm)]
              exact Or.inl ⟨(by rw [hvr] : ta + Re.1 = ta + Ri.1), rfl,
                (by omega : (0 : Int) ≤ ta + Re.1),
                (by omega : ta + Re.1 ≤ INT_MAX), hEr⟩
          · exact accrel_of_clamp hRx ta ta Re.1 Ri.1 hta0' (le_refl ta) htaM'
              hre0 hrei
        · exact absurd (by omega : Pe.1 = 0) hge
      · by_cases hgi : Pi.1 ≠ 0
        · rw [if_neg hge, if_pos hgi]
          have hRp : SimR Pe.2 Pi.2 := by
            rcases hP.2.2.1 ⟨rfl, hx, hg⟩ with ⟨hEp, hvp⟩ | hRp
            · exact absurd (by omega : Pi.1 = 0) hgi
            · exact hRp
          have hun : Unexh0 Pi.2 := ⟨hRp.2.1, hRp.2.2.2.1⟩
          have hQi := count_branch_pres hiP (noRes env) Pi.2
            lw rw w le re d lcost (nc - lcost) hun
          have hR' : SimR Pe.2
              (count_branch fi (noRes env) Pi.2 lw rw w le re d lcost
                (nc - lcost)).2 :=
            simr_right_step hRp
              (count_branch_evolves hiE (noRes env) Pi.2 lw rw w le re d lcost
                (nc - lcost)) hQi.2.2 hQi.2.1
          exact accrel_skip_left hR' ta ta _ hta0' (le_refl ta) htaM' hQi.1
        · rw [if_neg hge, if_neg hgi]
          rcases hP.2.2.1 ⟨rfl, hx, hg⟩ with ⟨hEp, hvp⟩ | hRp
          · exact Or.inl ⟨rfl, rfl, hta0', htaM', hEp⟩
          · exact Or.inr ⟨hRp, hta0', le_refl ta, htaM',
              fun h => Bool.noConfusion h, fun h => Bool.noConfusion h⟩
  · -- diverged mode
    have hta0' : 0 ≤ ta := hta0
    have htab' : ta ≤ tb := htab
    have htbM' : tb ≤ INT_MAX := htbM
    have hfa' : sa = true → ta = INT_MAX := hfa
    have hfb' : sb = true → tb = INT_MAX := hfb
    have hRcc : SimR ca cb := hR
    cases sa with
    | true =>
      cases sb with
      | true =>
        exact Or.inr ⟨hRcc, hta0', htab', htbM', fun _ => hfa' rfl, fun _ => hfb' rfl⟩
      | false =>
        have htaIM : ta = INT_MAX := hfa' rfl
        simp only [step_lcost]
        set Pi := count_branch (pc_fn (noRes env)) (noRes env) cb
          lw rw w le re d lcost (nc - lcost) with hPidef
        have hQp := count_branch_pres
          (pc_pres_unexh0 (noRes env) (oracle_off_noRes env)) (noRes env) cb
          lw rw w le re d lcost (nc - lcost) ⟨hRcc.2.1, hRcc.2.2.2.1⟩
        rw [← hPidef] at hQp
        have hR1 : SimR ca Pi.2 := by
          refine simr_right_step hRcc ?_ hQp.2.2 hQp.2.1
          rw [hPidef]
          exact count_branch_evolves (pc_fn_evolves (noRes env)) (noRes env) cb
            lw rw w le re d lcost (nc - lcost)
        by_cases hgi : Pi.1 ≠ 0
        · rw [if_pos hgi]
          have hQr := count_branch_pres hiP (noRes env) Pi.2
            lw rw w le re d lcost (nc - lcost) ⟨hR1.2.1, hR1.2.2.2.1⟩
          have hR2 : SimR ca
              (count_branch fi (noRes env) Pi.2 lw rw w le re d lcost
                (nc - lcost)).2 :=
            simr_right_step hR1
              (count_branch_evolves hiE (noRes env) Pi.2 lw rw w le re d lcost
                (nc - lcost)) hQr.2.2 hQr.2.1
          by_cases hm : INT_MAX < tb +
              (count_branch fi (noRes env) Pi.2 lw rw w le re d lcost
                (nc - lcost)).1
          · rw [if_pos hm]
            exact Or.inr ⟨hR2, hta0', (by omega : ta ≤ INT_MAX), le_refl INT_MAX,
              fun _ => htaIM, fun _ => rfl⟩
          · rw [if_neg hm]
            have hq0 := hQr.1
            exact Or.inr ⟨hR2, hta0',
              (by omega : ta ≤ tb +
                (count_branch fi (noRes env) Pi.2 lw rw w le re d lcost
                  (nc - lcost)).1),
              (by omega : tb +
                (count_branch fi (noRes env) Pi.2 lw rw w le re d lcost
                  (nc - lcost)).1 ≤ INT_MAX),
              fun _ => htaIM, fun h => Bool.noConfusion h⟩
        · rw [if_neg hgi]
          exact Or.inr ⟨hR1, hta0', htab', htbM', fun _ => htaIM,
            fun h => Bool.noConfusion h⟩
    | false =>
      cases sb with
      | true =>
        have htbIM : tb = INT_MAX := hfb' rfl
        simp only [step_lcost]
        set Pe := count_branch (pc_fn env) env ca lw rw w le re d lcost
          (nc - lcost) with hPedef
        have hQe := count_branch_pres
          (P := fun s => SimR s cb)
          (fun c lw' rw' le' re' nc' hp => shallow_pc env c cb lw' rw' le' re' nc' hp)
          env ca lw rw w le re d lcost (nc - lcost) hRcc
        rw [← hPedef] at hQe
        by_cases hge : Pe.1 ≠ 0
        · rw [if_pos hge]
          have hQr := count_branch_pres
            (P := fun s => SimR s cb)
            (fun c lw' rw' le' re' nc' hp => hSh c cb lw' rw' le' re' nc' hp)
            env Pe.2 lw rw w le re d lcost (nc - lcost) hQe.2
          by_cases hm : INT_MAX < ta +
              (count_branch fe env Pe.2 lw rw w le re d lcost (nc - lcost)).1
          · rw [if_pos hm]
            exact Or.inr ⟨hQr.2, (by norm_num [INT_MAX] : (0 : Int) ≤ INT_MAX),
              (by omega : INT_MAX ≤ tb), htbM', fun _ => rfl, fun _ => htbIM⟩
          · rw [if_neg hm]
            have hq0 := hQr.1
            exact Or.inr ⟨hQr.2,
              (by omega : (0 : Int) ≤ ta +
                (count_branch fe env Pe.2 lw rw w le re d lcost (nc - lcost)).1),
              (by omega : ta +
                (count_branch fe env Pe.2 lw rw w le re d lcost (nc - lcost)).1
                ≤ tb),
              htbM', fun h => Bool.noConfusion h, fun _ => htbIM⟩
        · rw [if_neg hge]
          exact Or.inr ⟨hQe.2, hta0', htab', htbM', fun h => Bool.noConfusion h,
            fun _ => htbIM⟩
      | false =>
        simp only [step_lcost]
        set Pe := count_branch (pc_fn env) env ca lw rw w le re d lcost
          (nc - lcost) with hPedef
        set Pi := count_branch (pc_fn (noRes env)) (noRes env) cb
          lw rw w le re d lcost (nc - lcost) with hPidef
        have hP := rel_count_branch (simf_pc env) (pc_fn_evolves env)
          (pc_fn_evolves (noRes env))
          (pc_pres_unexh0 (noRes env) (oracle_off_noRes env)) env ca cb
          lw rw w le re d lcost (nc - lcost) (Or.inr hRcc)
        rw [← hPedef, ← hPidef] at hP
        have hRp : SimR Pe.2 Pi.2 := hP.2.2.2 hRcc
        have hpe0 : 0 ≤ Pe.1 := hP.1
        have hpei : Pe.1 ≤ Pi.1 := hP.2.1
        by_cases hge : Pe.1 ≠ 0
        · by_cases hgi : Pi.1 ≠ 0
          · rw [if_pos hge, if_pos hgi]
            have hRr := rel_count_branch hS heE hiE hiP env Pe.2 Pi.2
              lw rw w le re d lcost (nc - lcost) (Or.inr hRp)
            exact accrel_of_clamp (hRr.2.2.2 hRp) ta tb _ _ hta0' htab' htbM'
              hRr.1 hRr.2.1
          · exact absurd (by omega : Pe.1 = 0) hge
        · by_cases hgi : Pi.1 ≠ 0
          · rw [if_neg hge, if_pos hgi]
            have hQi := count_branch_pres hiP (noRes env) Pi.2
              lw rw w le re d lcost (nc - lcost) ⟨hRp.2.1, hRp.2.2.2.1⟩
            have hR' : SimR Pe.2
                (count_branch fi (noRes env) Pi.2 lw rw w le re d lcost
                  (nc - lcost)).2 :=
              simr_right_step hRp
                (count_branch_evolves hiE (noRes env) Pi.2 lw rw w le re d lcost
                  (nc - lcost)) hQi.2.2 hQi.2.1
            exact accrel_skip_left hR' ta tb _ hta0' htab'
              (by omega : ta ≤ INT_MAX) hQi.1
          · rw [if_neg hge, if_neg hgi]
            exact Or.inr ⟨hRp, hta0', htab', htbM',
              fun h => Bool.noConfusion h, fun h => Bool.noConfusion h⟩

theorem rel_foldl {α : Type}
    (ge gi : (Int × Ctxt × Bool) → α → (Int × Ctxt × Bool))
    (hg : ∀ a b x, AccRel a b → AccRel (ge a x) (gi b x)) :
    ∀ (l : List α) (a b : Int × Ctxt × Bool), AccRel a b →
      AccRel (l.foldl ge a) (l.foldl gi b) := by
  intro l
  induction l with
  | nil => intro a b h; exact h
  | cons x l ih =>
    intro a b h
    rw [List.foldl_cons, List.foldl_cons]
    exact ih _ _ (hg a b x h)

theorem rel_step_disjunct {fe fi : CountFn} (hS : SimF fe fi)
    (heE : EvolvesF fe) (hiE : EvolvesF fi) (hiP : PresV Unexh0 fi)
    (hSh : ShallowF fe) (env : Env)
    (lw rw w : Int) (le re : Option Nat) (nc : Int)
    (a b : Int × Ctxt × Bool) (d : Disjunct) (hab : AccRel a b) :
    AccRel (step_disjunct fe env lw rw w le re nc a d)
      (step_disjunct fi (noRes env) lw rw w le re nc b d) := by
  unfold step_disjunct
  exact rel_foldl _ _
    (fun a b x h => rel_step_lcost hS heE hiE hiP hSh env lw rw w le re d nc
      a b x h) _ a b hab

theorem rel_step_word {fe fi : CountFn} (hS : SimF fe fi)
    (heE : EvolvesF fe) (hiE : EvolvesF fi) (hiP : PresV Unexh0 fi)
    (hSh : ShallowF fe) (env : Env)
    (lw rw : Int) (le re : Option Nat) (nc : Int)
    (a b : Int × Ctxt × Bool) (w : Int) (hab : AccRel a b) :
    AccRel (step_word fe env lw rw le re nc a w)
      (step_word fi (noRes env) lw rw le re nc b w) := by
  unfold step_word
  rw [noRes_fml]
  exact rel_foldl _ _
    (fun a b x h => rel_step_disjunct hS heE hiE hiP hSh env lw rw w le re nc
      a b x h) _ a b hab


theorem ite_one_zero_nonneg {p : Prop} [Decidable p] :
    (0 : Int) ≤ if p then 1 else 0 := by
  by_cases h : p
  · rw [if_pos h]; norm_num
  · rw [if_neg h]

theorem rel_fold_set {fe fi : CountFn} (heE : EvolvesF fe) (hiE : EvolvesF fi)
    (env : Env) (lw rw : Int) (le re : Option Nat) (nc : Int)
    (hstep : ∀ (a b : Int × Ctxt × Bool) (x : Int), AccRel a b →
      AccRel (step_word fe env lw rw le re nc a x)
        (step_word fi (noRes env) lw rw le re nc b x))
    (ce c1 : Ctxt) (k : TKey) (L : List Int)
    (hx : ce.exhausted = false) (hx1 : c1.exhausted = false) (hg1 : TblGe0 c1)
    (hkey : table_find c1.table k = some 0) :
    RelOut ce ce
      (ctxt_set
        (List.foldl (step_word fe env lw rw le re nc) (0, c1, false) L).2.1 k
        (List.foldl (step_word fe env lw rw le re nc) (0, c1, false) L).1)
      (ctxt_set
        (List.foldl (step_word fi (noRes env) lw rw le re nc) (0, c1, false) L).2.1 k
        (List.foldl (step_word fi (noRes env) lw rw le re nc) (0, c1, false) L).1)
      (List.foldl (step_word fe env lw rw le re nc) (0, c1, false) L).1
      (List.foldl (step_word fi (noRes env) lw rw le re nc) (0, c1, false) L).1 := by
  have hacc : AccRel (0, c1, false) (0, c1, false) :=
    Or.inl ⟨rfl, rfl, le_refl 0, (by norm_num [INT_MAX] : (0 : Int) ≤ INT_MAX),
      ⟨rfl, hx1, hg1⟩⟩
  have hF := rel_foldl (step_word fe env lw rw le re nc)
    (step_word fi (noRes env) lw rw le re nc) hstep L
    (0, c1, false) (0, c1, false) hacc
  have hEvE : Evolves c1
      (List.foldl (step_word fe env lw rw le re nc) (0, c1, false) L).2.1 :=
    foldl_evolves_from (step_word fe env lw rw le re nc)
      (fun acc x => step_word_evolves heE env lw rw le re nc acc x) L 0 c1 false
  have hEvI : Evolves c1
      (List.foldl (step_word fi (noRes env) lw rw le re nc) (0, c1, false) L).2.1 :=
    foldl_evolves_from (step_word fi (noRes env) lw rw le re nc)
      (fun acc x => step_word_evolves hiE (noRes env) lw rw le re nc acc x) L 0 c1
      false
  rcases hF with ⟨hveq, hfeq, h0a, hMa, hEs⟩ | ⟨hRs, h0a, habv, hbM, hfa, hfb⟩
  · have hveq' :
        (List.foldl (step_word fe env lw rw le re nc) (0, c1, false) L).1 =
        (List.foldl (step_word fi (noRes env) lw rw le re nc) (0, c1, false) L).1 :=
      hveq
    have h0a' :
        0 ≤ (List.foldl (step_word fe env lw rw le re nc) (0, c1, false) L).1 := h0a
    refine ⟨h0a', le_of_eq hveq', fun _ => Or.inl ⟨⟨?_, ?_, ?_⟩, hveq'⟩,
      fun hR' => (no_simr_of_unexh hx hR').elim⟩
    · show ctxt_set
          (List.foldl (step_word fe env lw rw le re nc) (0, c1, false) L).2.1 k
          (List.foldl (step_word fe env lw rw le re nc) (0, c1, false) L).1 =
        ctxt_set
          (List.foldl (step_word fi (noRes env) lw rw le re nc) (0, c1, false) L).2.1
          k
          (List.foldl (step_word fi (noRes env) lw rw le re nc) (0, c1, false) L).1
      rw [hEs.1, hveq']
    · exact hEs.2.1
    · exact tblge0_set k _ hEs.2.2 h0a'
  · have h0a' :
        0 ≤ (List.foldl (step_word fe env lw rw le re nc) (0, c1, false) L).1 := h0a
    have habv' :
        (List.foldl (step_word fe env lw rw le re nc) (0, c1, false) L).1 ≤
        (List.foldl (step_word fi (noRes env) lw rw le re nc) (0, c1, false) L).1 :=
      habv
    refine ⟨h0a', habv', fun _ => Or.inr ?_,
      fun hR' => (no_simr_of_unexh hx hR').elim⟩
    exact simr_set_both hRs k _ _ h0a' (le_trans h0a' habv') habv'
      ⟨0, hEvE.1 k 0 hkey⟩ ⟨0, hEvI.1 k 0 hkey⟩

theorem do_count_simf (fuel : Nat) (env : Env) :
    SimF (do_count fuel env) (do_count fuel (noRes env)) := by
  induction fuel with
  | zero =>
    intro ce ci lw rw le re nc hsim
    refine ⟨le_refl 0, le_refl 0, fun hEq => Or.inl ⟨hEq, rfl⟩, fun hR => hR⟩
  | succ fuel ih =>
    have heE := do_count_evolves fuel env
    have hiE := do_count_evolves fuel (noRes env)
    have hiP := do_count_pres_unexh0 fuel (noRes env) (oracle_off_noRes env)
    have hSh := shallow_do_count fuel env
    intro ce ci lw rw le re nc hsim
    rcases hsim with ⟨hceq, hx, hg⟩ | hR
    · have hceq' : ce = ci := hceq
      subst hceq'
      by_cases h0 : nc < 0
      · have hEeq : do_count (fuel + 1) env ce lw rw le re nc = (0, ce) := by
          simp only [do_count]
          unfold do_count_body
          rw [if_pos h0]
        have hIeq : do_count (fuel + 1) (noRes env) ce lw rw le re nc = (0, ce) := by
          simp only [do_count]
          unfold do_count_body
          rw [if_pos h0]
        rw [hEeq, hIeq]
        exact ⟨le_refl 0, le_refl 0, fun _ => Or.inl ⟨⟨rfl, hx, hg⟩, rfl⟩,
          fun hR' => (no_simr_of_unexh hx hR').elim⟩
      · cases hfind : table_find ce.table ⟨lw, rw, le, re, nc⟩ with
        | some v =>
          have hEeq := do_count_hit (fuel + 1) env ce lw rw le re nc v
            (by omega) (by omega) hfind
          have hIeq := do_count_hit (fuel + 1) (noRes env) ce lw rw le re nc v
            (by omega) (by omega) hfind
          rw [hEeq, hIeq]
          exact ⟨hg _ v hfind, le_refl v, fun _ => Or.inl ⟨⟨rfl, hx, hg⟩, rfl⟩,
            fun hR' => (no_simr_of_unexh hx hR').elim⟩
        | none =>
          have hqi : ¬ poll_fires (noRes env) ce := by
            rw [poll_fires_oracle_off (noRes env) ce (oracle_off_noRes env), hx]
            exact fun h => Bool.noConfusion h
          by_cases hqe : poll_fires env ce
          · have hEeq : do_count (fuel + 1) env ce lw rw le re nc =
                (0, table_store
                  { ce with checktimer := ce.checktimer + 1, exhausted := true }
                  ⟨lw, rw, le, re, nc⟩ 0) := by
              simp only [do_count]
              simp only [do_count_body]
              rw [if_neg h0, ftp_stuff env ce ⟨lw, rw, le, re, nc⟩ hfind hqe]
            have hiP1 := do_count_pres_unexh0 (fuel + 1) (noRes env)
              (oracle_off_noRes env) ce lw rw le re nc ⟨hx, hg⟩
            have hiEv1 := do_count_evolves (fuel + 1) (noRes env) ce lw rw le re nc
            rw [hEeq]
            refine ⟨le_refl 0, hiP1.1, fun _ => Or.inr ?_,
              fun hR' => (no_simr_of_unexh hx hR').elim⟩
            refine ⟨rfl, hiP1.2.1, ?_, hiP1.2.2, ?_⟩
            · exact tblge0_store ⟨lw, rw, le, re, nc⟩ 0
                (fun k' v hv => hg k' v hv) (le_refl 0)
            · intro k' v hv
              simp only [table_store] at hv
              by_cases hk : (⟨lw, rw, le, re, nc⟩ : TKey) = k'
              · subst hk
                rw [table_find_cons_self] at hv
                rw [Option.some_inj] at hv
                exact Or.inl hv.symm
              · rw [table_find_cons_of_ne _ (⟨lw, rw, le, re, nc⟩, 0) k' hk] at hv
                exact Or.inr ⟨v, hiEv1.1 k' v hv, le_refl v⟩
          · simp only [do_count]
            simp only [do_count_body]
            rw [if_neg h0, if_neg h0]
            rw [ftp_miss env ce ⟨lw, rw, le, re, nc⟩ hfind hqe,
                ftp_miss (noRes env) ce ⟨lw, rw, le, re, nc⟩ hfind hqi]
            simp only [noRes_conn, noRes_local_sent]
            set k : TKey := ⟨lw, rw, le, re, nc⟩ with hkdef
            set c1 := table_store { ce with checktimer := ce.checktimer + 1 } k 0
              with hc1def
            have hx1 : c1.exhausted = false := hx
            have hg1 : TblGe0 c1 := by
              rw [hc1def]
              exact tblge0_store k 0 (fun k' v hv => hg k' v hv) (le_refl 0)
            have hkey : table_find c1.table k = some 0 := by
              rw [hc1def]
              exact table_find_cons_self _ k 0
            by_cases hadj : rw = lw + 1
            · rw [if_pos hadj, if_pos hadj]
              exact ⟨ite_one_zero_nonneg, le_refl _,
                fun _ => Or.inl ⟨⟨rfl, hx1, tblge0_set k _ hg1 ite_one_zero_nonneg⟩,
                  rfl⟩,
                fun hR' => (no_simr_of_unexh hx hR').elim⟩
            · rw [if_neg hadj, if_neg hadj]
              by_cases hbn : le = none ∧ re = none
              · rw [if_pos hbn, if_pos hbn]
                by_cases hisl : c1.islands_ok = false ∧ lw ≠ -1
                · rw [if_pos hisl, if_pos hisl]
                  exact ⟨ite_one_zero_nonneg, le_refl _,
                    fun _ => Or.inl
                      ⟨⟨rfl, hx1, tblge0_set k _ hg1 ite_one_zero_nonneg⟩, rfl⟩,
                    fun hR' => (no_simr_of_unexh hx hR').elim⟩
                · rw [if_neg hisl, if_neg hisl]
                  by_cases hz : nc = 0
                  · rw [if_pos hz, if_pos hz]
                    exact ⟨le_refl 0, le_refl 0,
                      fun _ => Or.inl ⟨⟨rfl, hx1, tblge0_set k 0 hg1 (le_refl 0)⟩,
                        rfl⟩,
                      fun hR' => (no_simr_of_unexh hx hR').elim⟩
                  · rw [if_neg hz, if_neg hz]
                    set Rne := null_words_total (do_count fuel env) c1 (lw + 1) rw
                      nc (env.local_sent (lw + 1)) with hRnedef
                    set Rni := null_words_total (do_count fuel (noRes env)) c1
                      (lw + 1) rw nc (env.local_sent (lw + 1)) with hRnidef
                    have hrel := rel_null_words_total ih c1 c1 (lw + 1) rw nc
                      (env.local_sent (lw + 1)) (Or.inl ⟨rfl, hx1, hg1⟩)
                    rw [← hRnedef, ← hRnidef] at hrel
                    have hEvE : Evolves c1 Rne.2 := by
                      rw [hRnedef]
                      exact null_words_total_evolves heE c1 (lw + 1) rw nc _
                    have hEvI : Evolves c1 Rni.2 := by
                      rw [hRnidef]
                      exact null_words_total_evolves hiE c1 (lw + 1) rw nc _
                    refine ⟨hrel.1, hrel.2.1, fun _ => ?_,
                      fun hR' => (no_simr_of_unexh hx hR').elim⟩
                    rcases hrel.2.2.1 ⟨rfl, hx1, hg1⟩ with ⟨hEr, hvr⟩ | hRr
                    · refine Or.inl ⟨⟨?_, ?_, ?_⟩, hvr⟩
                      · show ctxt_set Rne.2 k Rne.1 = ctxt_set Rni.2 k Rni.1
                        rw [hEr.1, hvr]
                      · exact hEr.2.1
                      · exact tblge0_set k Rne.1 hEr.2.2 hrel.1
                    · exact Or.inr (simr_set_both hRr k Rne.1 Rni.1 hrel.1
                        (le_trans hrel.1 hrel.2.1) hrel.2.1
                        ⟨0, hEvE.1 k 0 hkey⟩ ⟨0, hEvI.1 k 0 hkey⟩)
              · rw [if_neg hbn, if_neg hbn]
                exact rel_fold_set heE hiE env lw rw le re nc
                  (fun a b x h => rel_step_word ih heE hiE hiP hSh env lw rw le re
                    nc a b x h)
                  ce c1 k _ hx hx1 hg1 hkey
    · have hiP1 := do_count_pres_unexh0 (fuel + 1) (noRes env)
        (oracle_off_noRes env) ci lw rw le re nc ⟨hR.2.1, hR.2.2.2.1⟩
      have hiEv1 := do_count_evolves (fuel + 1) (noRes env) ci lw rw le re nc
      by_cases h0 : nc < 0
      · have hEeq : do_count (fuel + 1) env ce lw rw le re nc = (0, ce) := by
          simp only [do_count]
          unfold do_count_body
          rw [if_pos h0]
        have hIeq : do_count (fuel + 1) (noRes env) ci lw rw le re nc = (0, ci) := by
          simp only [do_count]
          unfold do_count_body
          rw [if_pos h0]
        rw [hEeq, hIeq]
        exact ⟨le_refl 0, le_refl 0, fun hEq => (simeq_simr_absurd hEq hR).elim,
          fun _ => hR⟩
      · cases hfe : table_find ce.table ⟨lw, rw, le, re, nc⟩ with
        | some v =>
          have hEeq := do_count_hit (fuel + 1) env ce lw rw le re nc v
            (by omega) (by omega) hfe
          rcases hR.2.2.2.2 ⟨lw, rw, le, re, nc⟩ v hfe with hv0 | ⟨vi0, hvi0, hlevi⟩
          · rw [hEeq]
            refine ⟨hR.2.2.1 _ v hfe, ?_,
              fun hEq => (simeq_simr_absurd hEq hR).elim,
              fun _ => simr_right_step hR hiEv1 hiP1.2.2 hiP1.2.1⟩
            rw [hv0]
            exact hiP1.1
          · have hIeq := do_count_hit (fuel + 1) (noRes env) ci lw rw le re nc vi0
              (by omega) (by omega) hvi0
            rw [hEeq, hIeq]
            exact ⟨hR.2.2.1 _ v hfe, hlevi,
              fun hEq => (simeq_simr_absurd hEq hR).elim, fun _ => hR⟩
        | none =>
          have hEeq : do_count (fuel + 1) env ce lw rw le re nc =
              (0, table_store
                { ce with checktimer := ce.checktimer + 1, exhausted := true }
                ⟨lw, rw, le, re, nc⟩ 0) := by
            simp only [do_count]
            simp only [do_count_body]
            rw [if_neg h0, ftp_stuff env ce ⟨lw, rw, le, re, nc⟩ hfe (Or.inl hR.1)]
          rw [hEeq]
          exact ⟨le_refl 0, hiP1.1, fun hEq => (simeq_simr_absurd hEq hR).elim,
            fun _ => simr_right_step (simr_left_stuff hR ⟨lw, rw, le, re, nc⟩ _)
              hiEv1 hiP1.2.2 hiP1.2.1⟩


/-- The truncated parse never overcounts: from any nonnegative memo
table, `do_parse` under a resource budget returns at most what the
same parse returns when the budget never reports exhaustion. -/
theorem do_parse_lower_bound (fuel : Nat) (env : Env) (sent_length : Int)
    (c : Ctxt) (null_count : Int) (opts : ParseOptions) (hg : TblGe0 c) :
    (do_parse fuel env sent_length c null_count opts).1 ≤
    (do_parse fuel (noRes env) sent_length c null_count opts).1 := by
  rw [do_parse_eq, do_parse_eq]
  have hsim : Sim
      { null_block := 1, islands_ok := opts.islands_ok,
        current_resources := opts.resources, table := c.table,
        exhausted := env.resExhausted c.checktimer, checktimer := 0 }
      { null_block := 1, islands_ok := opts.islands_ok,
        current_resources := opts.resources, table := c.table,
        exhausted := (noRes env).resExhausted c.checktimer, checktimer := 0 } := by
    cases hre : env.resExhausted c.checktimer with
    | false =>
      exact Or.inl ⟨rfl, rfl, fun k v hv => hg k v hv⟩
    | true =>
      exact Or.inr ⟨rfl, rfl, fun k v hv => hg k v hv, fun k v hv => hg k v hv,
        fun k v hv => Or.inr ⟨v, hv, le_refl v⟩⟩
  exact (do_count_simf fuel env _ _ (-1) sent_length none none (null_count + 1)
    hsim).2.1

/-! ### Claims -/

/-- C1.  Pseudocount soundness: for every branch of the main loop of
`do_count` — a split word `w`, a disjunct `d`, and a cost partition
`(lcost, rcost)` — if the pseudototal (leftcount·rightcount, plus
leftcount times the right-side pseudocount when leftcount > 0, plus
rightcount times the left-side pseudocount when `le` is null and
rightcount > 0, all with `pseudocount` over the current memo table)
is 0, then the real total computed by the same aggregation with
`do_count` in place of `pseudocount` on identical arguments is 0 as
well, so skipping that branch does not change the returned count. -/
theorem c1_pseudocount_soundness (env : Env) (fuel : Nat) (c : Ctxt)
    (lw rw w : Int) (le re : Option Nat) (d : Disjunct) (lcost rcost : Int)
    (hz : (count_branch (pc_fn env) env c lw rw w le re d lcost rcost).1 = 0) :
    (count_branch (do_count fuel env) env
      (count_branch (pc_fn env) env c lw rw w le re d lcost rcost).2
      lw rw w le re d lcost rcost).1 = 0 :=
  count_branch_pc_zero env fuel c lw rw w le re d lcost rcost hz

/-- Witness for C1 at a concrete branch whose pseudototal is zero. -/
theorem c1_pseudocount_soundness_witness :
    (count_branch (pc_fn envTriv) envTriv ctxtTriv 0 2 1 none none
        ⟨none, none⟩ 0 0).1 = 0 ∧
    (count_branch (do_count 3 envTriv) envTriv
      (count_branch (pc_fn envTriv) envTriv ctxtTriv 0 2 1 none none
        ⟨none, none⟩ 0 0).2
      0 2 1 none none ⟨none, none⟩ 0 0).1 = 0 :=
  ⟨by decide,
   c1_pseudocount_soundness envTriv 3 ctxtTriv 0 2 1 none none
     ⟨none, none⟩ 0 0 (by decide)⟩

/-- C2.  Memoization discipline: with fuel available and a legal null
count, a `do_count` call whose key is already in the table returns the
stored count and leaves the whole context untouched; a call whose key
is absent leaves — on every return path — the table mapping that key
to exactly the count the frame returns (the tentative 0 inserted
before recursion has been overwritten, or is itself returned after an
exhaustion stuff). -/
theorem c2_memoization_discipline (fuel : Nat) (env : Env) (c : Ctxt)
    (lw rw : Int) (le re : Option Nat) (nc : Int)
    (hfuel : 1 ≤ fuel) (h0 : 0 ≤ nc) :
    (∀ v, table_find c.table ⟨lw, rw, le, re, nc⟩ = some v →
        do_count fuel env c lw rw le re nc = (v, c)) ∧
    (table_find c.table ⟨lw, rw, le, re, nc⟩ = none →
        table_find (do_count fuel env c lw rw le re nc).2.table
          ⟨lw, rw, le, re, nc⟩
          = some (do_count fuel env c lw rw le re nc).1) :=
  ⟨fun v hv => do_count_hit fuel env c lw rw le re nc v hfuel h0 hv,
   fun _ => do_count_entry fuel env c lw rw le re nc hfuel h0⟩

/-- Witness for C2: on an empty table the frame finalizes its own
entry with the returned count. -/
theorem c2_memoization_discipline_witness :
    table_find (do_count 1 envTriv ctxtTriv 0 1 none none 0).2.table
      ⟨0, 1, none, none, 0⟩
      = some (do_count 1 envTriv ctxtTriv 0 1 none none 0).1 :=
  (c2_memoization_discipline 1 envTriv ctxtTriv 0 1 none none 0
    (by decide) (by decide)).2 (by rfl)

/-- C3 (counterexample).  `do_parse` does not clear the `exhausted`
flag: it sets it to the current value of `resources_exhausted`.  With
a budget that is already exhausted, the parse returns 0, whereas the
claimed behaviour (a context whose `exhausted` flag is false)
computes 2 — so `do_parse` does not equal `do_count` run from the
snapshot the claim describes. -/
theorem c3_driver_contract_counterexample :
    ¬ ((do_parse 10 envExh 1 ctxtTriv 0 ⟨false, false⟩).1 =
       (do_count 10 envExh
          { null_block := 1, islands_ok := false, current_resources := false,
            table := ctxtTriv.table, exhausted := false, checktimer := 0 }
          (-1) 1 none none 1).1) := by
  decide

/-- C3 (amended).  Driver contract: `do_parse` sets `null_block` to 1,
copies `islands_ok` and the resource handle from the options, sets
`checktimer` to 0, sets `exhausted` to the current value of
`resources_exhausted` (false whenever the budget is not yet burned),
and returns exactly the value of
`do_count(-1, sentence.length, null, null, null_count + 1)` run from
that snapshot. -/
theorem c3_driver_contract (fuel : Nat) (env : Env) (sent_length : Int)
    (c : Ctxt) (null_count : Int) (opts : ParseOptions) :
    do_parse fuel env sent_length c null_count opts =
      ((do_count fuel env
          { null_block := 1, islands_ok := opts.islands_ok,
            current_resources := opts.resources, table := c.table,
            exhausted := env.resExhausted c.checktimer, checktimer := 0 }
          (-1) sent_length none none (null_count + 1)).1,
       { (do_count fuel env
            { null_block := 1, islands_ok := opts.islands_ok,
              current_resources := opts.resources, table := c.table,
              exhausted := env.resExhausted c.checktimer, checktimer := 0 }
            (-1) sent_length none none (null_count + 1)).2 with
         current_resources := false, checktimer := 0 }) :=
  do_parse_eq fuel env sent_length c null_count opts

/-- C4 (counterexample).  `do_count` can return more than `INT_MAX`:
the both-boundaries-null summation carries no saturation check, so a
17-word sentence of bare disjuncts counts `4^17 > INT_MAX` ways from
an empty table. -/
theorem c4_saturation_counterexample :
    INT_MAX < (do_count 40 envOverflow ctxtTriv (-1) 17 none none 17).1 := by
  decide

/-- C4 (amended).  Saturation bound for the connector path: on a fresh
key with at least one boundary connector pending, every value
`do_count` returns is at most `INT_MAX` — the main loop stores
`INT_MAX` and returns immediately whenever the running total exceeds
it.  (The both-boundaries-null branch performs no such clamp and can
exceed `INT_MAX`, as the counterexample shows.) -/
theorem c4_saturation_general_loop (fuel : Nat) (env : Env) (c : Ctxt)
    (lw rw : Int) (le re : Option Nat) (nc : Int)
    (hne : ¬ (le = none ∧ re = none))
    (habs : table_find c.table ⟨lw, rw, le, re, nc⟩ = none) :
    (do_count fuel env c lw rw le re nc).1 ≤ INT_MAX :=
  do_count_general_bound fuel env c lw rw le re nc hne habs

/-- Witness for C4 (amended) at a concrete one-connector call. -/
theorem c4_saturation_general_loop_witness :
    (do_count 1 envTriv ctxtTriv 0 3 (some 0) none 0).1 ≤ INT_MAX :=
  c4_saturation_general_loop 1 envTriv ctxtTriv 0 3 (some 0) none 0
    (by decide) (by rfl)

/-- C5 (counterexample).  The default `do_match` (the one compiled
without USE_FAT_LINKAGES) never consults labels: two connectors with
different labels but matching strings and adequate length limits
match. -/
theorem c5_label_counterexample :
    connA.label ≠ connB.label ∧ do_match envTriv connA connB 0 1 = true := by
  decide

/-- C5 (amended).  Only the USE_FAT_LINKAGES variant of `do_match`
checks labels: it returns false whenever the labels differ, regardless
of strings, priorities or distance; the default `do_match` ignores the
label fields entirely (its value is invariant under relabeling). -/
theorem c5_label_mismatch (env : Env) :
    (∀ (a b : Connector) (aw bw : Int), a.label ≠ b.label →
        do_match_fat env a b aw bw = false) ∧
    (∀ (a b : Connector) (aw bw l1 l2 : Int),
        do_match env { a with label := l1 } { b with label := l2 } aw bw
          = do_match env a b aw bw) := by
  constructor
  · intro a b aw bw h
    unfold do_match_fat
    rw [if_pos h]
  · intro a b aw bw l1 l2
    rfl

/-- Witness for C5 (amended): the fat matcher rejects the concrete
label-mismatched pair. -/
theorem c5_label_mismatch_witness :
    do_match_fat envTriv connA connB 0 1 = false :=
  (c5_label_mismatch envTriv).1 connA connB 0 1 (by decide)

/-- C7.  Islands-disallowed base case: with both boundary connectors
null, a gap of at least two words, `islands_ok` false and `lw ≠ -1`
(on a fresh key, no zero-stuffing, positive `null_block`), the count
is 1 exactly when `null_count` is the ceiling of `(rw - lw - 1) /
null_block` — computed by the source as
`(rw - lw - 1 + null_block - 1) / null_block`, which the second
conjunct identifies with the ceiling — and 0 for every other
`null_count`. -/
theorem c7_islands_disallowed (fuel : Nat) (env : Env) (c : Ctxt)
    (lw rw nc : Int) (hfuel : 1 ≤ fuel) (h0 : 0 ≤ nc)
    (hnb : 0 < c.null_block)
    (habs : table_find c.table ⟨lw, rw, none, none, nc⟩ = none)
    (hnp : ¬ poll_fires env c) (hgap : lw + 1 < rw)
    (hisl : c.islands_ok = false) (hlw : lw ≠ -1) :
    ((do_count fuel env c lw rw none none nc).1
      = (if nc = (rw - lw - 1 + c.null_block - 1) / c.null_block
         then 1 else 0)) ∧
    (nc = (rw - lw - 1 + c.null_block - 1) / c.null_block ↔
      (rw - lw - 1 ≤ nc * c.null_block ∧
       (nc - 1) * c.null_block < rw - lw - 1)) :=
  ⟨do_count_islands fuel env c lw rw nc hfuel h0 habs hnp (by omega) hisl hlw,
   ceil_div_char (rw - lw - 1) c.null_block nc hnb⟩

/-- Witness for C7: skipping the single interior word of a 3-word gapped
range costs exactly one null. -/
theorem c7_islands_disallowed_witness :
    ((do_count 1 envTriv ctxtNoIsl 0 2 none none 1).1
      = (if (1 : Int) = (2 - 0 - 1 + ctxtNoIsl.null_block - 1) / ctxtNoIsl.null_block
         then 1 else 0)) ∧
    ((1 : Int) = (2 - 0 - 1 + ctxtNoIsl.null_block - 1) / ctxtNoIsl.null_block ↔
      (2 - 0 - 1 ≤ 1 * ctxtNoIsl.null_block ∧
       (1 - 1) * ctxtNoIsl.null_block < 2 - 0 - 1)) :=
  c7_islands_disallowed 1 envTriv ctxtNoIsl 0 2 1 (by decide) (by decide)
    (by decide) (by rfl) (by decide) (by decide) (by decide) (by decide)

/-- C8.  Adjacent-words base case: when `rw = lw + 1` and the key is
not yet memoized (and no zero-stuffing fires), the count is 1 if both
boundary connectors are null and `null_count = 0`, and 0 in every
other case. -/
theorem c8_adjacent_words (fuel : Nat) (env : Env) (c : Ctxt) (lw rw : Int)
    (le re : Option Nat) (nc : Int) (hfuel : 1 ≤ fuel) (h0 : 0 ≤ nc)
    (habs : table_find c.table ⟨lw, rw, le, re, nc⟩ = none)
    (hnp : ¬ poll_fires env c) (hadj : rw = lw + 1) :
    (do_count fuel env c lw rw le re nc).1
      = (if le = none ∧ re = none ∧ nc = 0 then 1 else 0) :=
  do_count_adjacent fuel env c lw rw le re nc hfuel h0 habs hnp hadj

/-- Witness for C8: the trivial adjacent range parses exactly once. -/
theorem c8_adjacent_words_witness :
    (do_count 1 envTriv ctxtTriv 0 1 none none 0).1
      = (if (none : Option Nat) = none ∧ (none : Option Nat) = none ∧ (0 : Int) = 0
         then 1 else 0) :=
  c8_adjacent_words 1 envTriv ctxtTriv 0 1 none none 0 (by decide) (by decide)
    (by rfl) (by decide) (by decide)

/-- C9 (counterexample).  Memo entries are not freed by `do_parse`:
after a parse the context's table still holds the entries the
recursion created (here the root entry), so a second `do_parse` on the
same context does not begin with an empty table. -/
theorem c9_memo_lifetime_counterexample :
    (do_parse 10 envTriv 0 alloc_count_context 0 ⟨false, false⟩).2.table ≠ [] := by
  decide

/-- C9 (amended).  Memo persistence: the entries created during
`do_parse` survive it — in particular the whole-sentence root entry
still maps to the returned total in the context `do_parse` hands back.
The table is emptied only by `init_table` / `free_table`
(via `alloc_count_context` / `free_count_context`), never by
`do_parse` itself. -/
theorem c9_memo_persists (fuel : Nat) (env : Env) (sent_length : Int)
    (c : Ctxt) (nc : Int) (opts : ParseOptions)
    (hfuel : 1 ≤ fuel) (h0 : 0 ≤ nc + 1) :
    table_find (do_parse fuel env sent_length c nc opts).2.table
      ⟨-1, sent_length, none, none, nc + 1⟩
      = some (do_parse fuel env sent_length c nc opts).1 := by
  rw [do_parse_eq]
  exact do_count_entry fuel env _ (-1) sent_length none none (nc + 1) hfuel h0

/-- Witness for C9 (amended): the root entry survives a concrete parse. -/
theorem c9_memo_persists_witness :
    table_find (do_parse 1 envTriv 0 alloc_count_context 0 ⟨false, false⟩).2.table
      ⟨-1, 0, none, none, 1⟩
      = some (do_parse 1 envTriv 0 alloc_count_context 0 ⟨false, false⟩).1 :=
  c9_memo_persists 1 envTriv 0 alloc_count_context 0 ⟨false, false⟩
    (by decide) (by decide)

/-- C10 (counterexample).  A `table_lookup` that hits does not
increment the checktimer (the chain walk returns before the
increment), refuting "every call to table_lookup increments the
context's checktimer". -/
theorem c10_lookup_counterexample :
    (table_lookup envTriv ctxtHit 0 2 none none 0).2.checktimer
      ≠ ctxtHit.checktimer + 1 := by
  decide

/-- C10 (amended).  Lookups are not pure queries, but only misses pay:
a hit returns the stored count with the context bit-identical; a miss
increments `checktimer` (and may poll the budget); and once
`exhausted` is set, a miss permanently inserts a zero-count entry and
returns it, so a `pseudocount` that would have answered 1 on a miss
answers 0 — mutating memo state during the pseudocount pass. -/
theorem c10_lookup_side_effects (env : Env) (c : Ctxt) (lw rw : Int)
    (le re : Option Nat) (cost : Int) :
    (∀ v, table_find c.table ⟨lw, rw, le, re, cost⟩ = some v →
        table_lookup env c lw rw le re cost = (v, c)) ∧
    (table_find c.table ⟨lw, rw, le, re, cost⟩ = none →
        (table_lookup env c lw rw le re cost).2.checktimer = c.checktimer + 1) ∧
    (c.exhausted = true → table_find c.table ⟨lw, rw, le, re, cost⟩ = none →
        (table_lookup env c lw rw le re cost).1 = 0 ∧
        table_find (table_lookup env c lw rw le re cost).2.table
          ⟨lw, rw, le, re, cost⟩ = some 0 ∧
        (pseudocount env c lw rw le re cost).1 = 0) :=
  ⟨fun v hv => table_lookup_hit env c lw rw le re cost v hv,
   fun h => table_lookup_miss_timer env c lw rw le re cost h,
   fun hex h => table_lookup_exhausted env c lw rw le re cost hex h⟩

/-- Witness for C10 (amended): an exhausted-mode miss stuffs a
permanent zero and pseudocount answers 0. -/
theorem c10_lookup_side_effects_witness :
    (table_lookup envTriv ctxtExh 0 2 none none 0).1 = 0 ∧
    table_find (table_lookup envTriv ctxtExh 0 2 none none 0).2.table
      ⟨0, 2, none, none, 0⟩ = some 0 ∧
    (pseudocount envTriv ctxtExh 0 2 none none 0).1 = 0 :=
  (c10_lookup_side_effects envTriv ctxtExh 0 2 none none 0).2.2
    (by rfl) (by rfl)

/-- C6: Exhaustion short-circuit.  From any exhausted state reached during
a parse: (i) the exhausted flag never reverts to false across any further
`do_count` call; (ii) a lookup for a key not yet in the table materializes
a zero-count entry (with the checktimer bumped) and returns it, so the key
is then in the table with count 0; (iii) such a fresh subproblem evaluates
to 0; and (iv) for any nonnegative memo table, the final count of
`do_parse` under the resource budget is a lower bound on the exact count —
the count the same parse returns when the budget never reports
exhaustion. -/
theorem c6_exhaustion_short_circuit (fuel : Nat) (env : Env) (c : Ctxt)
    (lw rw : Int) (le re : Option Nat) (nc : Int)
    (sent_length null_count : Int) (opts : ParseOptions)
    (hex : c.exhausted = true)
    (habs : table_find c.table ⟨lw, rw, le, re, nc⟩ = none)
    (hg : TblGe0 c) :
    (do_count fuel env c lw rw le re nc).2.exhausted = true ∧
    find_table_pointer env c ⟨lw, rw, le, re, nc⟩ =
      (some 0, table_store
        { c with checktimer := c.checktimer + 1, exhausted := true }
        ⟨lw, rw, le, re, nc⟩ 0) ∧
    table_find (find_table_pointer env c ⟨lw, rw, le, re, nc⟩).2.table
      ⟨lw, rw, le, re, nc⟩ = some 0 ∧
    (do_count fuel env c lw rw le re nc).1 = 0 ∧
    (do_parse fuel env sent_length c null_count opts).1 ≤
      (do_parse fuel (noRes env) sent_length c null_count opts).1 := by
  refine ⟨?_, ?_, ?_, ?_, ?_⟩
  · exact (do_count_evolves fuel env c lw rw le re nc).2.2.2.2 hex
  · exact ftp_stuff env c ⟨lw, rw, le, re, nc⟩ habs (Or.inl hex)
  · rw [ftp_stuff env c ⟨lw, rw, le, re, nc⟩ habs (Or.inl hex)]
    exact table_find_cons_self _ ⟨lw, rw, le, re, nc⟩ 0
  · exact do_count_exhausted_fresh fuel env c lw rw le re nc hex habs
  · exact do_parse_lower_bound fuel env sent_length c null_count opts hg

theorem c6_exhaustion_short_circuit_witness :
    (ctxtExh.exhausted = true ∧
     table_find ctxtExh.table ⟨0, 2, none, none, 0⟩ = none ∧
     TblGe0 ctxtExh) ∧
    ((do_count 1 envTriv ctxtExh 0 2 none none 0).2.exhausted = true ∧
     find_table_pointer envTriv ctxtExh ⟨0, 2, none, none, 0⟩ =
       (some 0, table_store
         { ctxtExh with checktimer := ctxtExh.checktimer + 1, exhausted := true }
         ⟨0, 2, none, none, 0⟩ 0) ∧
     table_find (find_table_pointer envTriv ctxtExh ⟨0, 2, none, none, 0⟩).2.table
       ⟨0, 2, none, none, 0⟩ = some 0 ∧
     (do_count 1 envTriv ctxtExh 0 2 none none 0).1 = 0 ∧
     (do_parse 1 envTriv 0 ctxtExh 0 ⟨false, false⟩).1 ≤
       (do_parse 1 (noRes envTriv) 0 ctxtExh 0 ⟨false, false⟩).1) :=
  ⟨⟨rfl, rfl, fun _k _v hv => absurd hv (fun h => Option.noConfusion h)⟩,
   c6_exhaustion_short_circuit 1 envTriv ctxtExh 0 2 none none 0 0 0 ⟨false, false⟩
     rfl rfl (fun _k _v hv => absurd hv (fun h => Option.noConfusion h))⟩
